import Mathlib

/-!
# Verification of the eidon_view query resolution pipeline

Shallow embedding of the query parser (client/src/lib/filters.ts), the
filter state manager (client/src/hooks/useSearch.ts), the retrieval
planner and capture toggle (server storage), and the /api/search route
validation, together with proofs settling the frozen claims about them.

Strings are embedded as `List Char`.  JavaScript regular-expression
matching is embedded operationally: a match attempt at each position,
scanning left to right, exactly as a non-global JS regex `match` does;
`String.prototype.replace` with a string pattern is first-occurrence
literal replacement.  The character classes are restricted to the ASCII
range, which is the only range the source ever feeds them.
-/

namespace EidonView

/-- ASCII whitespace as matched by the JavaScript `\s` class and by
`String.prototype.trim` (restricted to ASCII). -/
def jsSpace (c : Char) : Bool :=
  c = ' ' || c = '\t' || c = '\n' || c = '\r' || c = Char.ofNat 11 || c = Char.ofNat 12

/-- The double-quote character. -/
def dq : Char := Char.ofNat 34

/-- The single-quote character. -/
def sq : Char := Char.ofNat 39

/-- A character matched by the JS class `["']`. -/
def isQuoteChar (c : Char) : Bool := c = dq || c = sq

/-- Case-insensitive character comparison, as induced by the `/i` regex
flag (ASCII case folding via `Char.toLower`). -/
def lowEq (a b : Char) : Bool := a.toLower == b.toLower

/-- Prefix test parameterized by a character comparison. -/
def startsWithBy (eq : Char → Char → Bool) : List Char → List Char → Bool
  | [], _ => true
  | _ :: _, [] => false
  | p :: ps, c :: cs => eq p c && startsWithBy eq ps cs

/-- `startsWithCI pat s`: `pat` is a case-insensitive prefix of `s`. -/
def startsWithCI : List Char → List Char → Bool := startsWithBy lowEq

/-- `startsWithCS pat s`: `pat` is a literal (case-sensitive) prefix of `s`. -/
def startsWithCS : List Char → List Char → Bool := startsWithBy fun a b => a == b

/-- `containsCI pat s`: `pat` occurs case-insensitively somewhere in `s`. -/
def containsCI (pat : List Char) : List Char → Bool
  | [] => startsWithCI pat []
  | c :: t => startsWithCI pat (c :: t) || containsCI pat t

/-- JavaScript `String.prototype.trim`: strip leading and trailing
whitespace. -/
def trim (s : List Char) : List Char :=
  ((s.dropWhile jsSpace).reverse.dropWhile jsSpace).reverse

/-- One match attempt, at the head of `s`, of a regex of the shape
`pat([^\s]+)` with the `/i` flag (the `date:` and `time:` patterns of
parseSearchQuery).  The captured group is the maximal nonempty run of
non-whitespace characters after the prefix.  Returns
`(whole match, captured group)`, both taken verbatim from `s`. -/
def tryMatchSimple (pat : List Char) (s : List Char) : Option (List Char × List Char) :=
  if startsWithCI pat s then
    let run := (s.drop pat.length).takeWhile (fun c => !jsSpace c)
    if run.isEmpty then none else some (s.take pat.length ++ run, run)
  else none

/-- One match attempt, at the head of `s`, of a regex of the shape
`pat([^\s]+|"[^"]+"|'[^']+')` with the `/i` flag (the `title:` and
`url:` patterns).  As in JavaScript, alternatives are tried left to
right, so the bare-token alternative `[^\s]+` is tried before the quoted
ones; a quoted alternative captures the quotes as part of the group. -/
def tryMatchQuoted (pat : List Char) (s : List Char) : Option (List Char × List Char) :=
  if startsWithCI pat s then
    let rest := s.drop pat.length
    let run := rest.takeWhile (fun c => !jsSpace c)
    if !run.isEmpty then some (s.take pat.length ++ run, run)
    else
      match rest with
      | [] => none
      | c :: r2 =>
        if c = dq then
          let inner := r2.takeWhile (fun x => x ≠ dq)
          if !inner.isEmpty && startsWithCS [dq] (r2.drop inner.length) then
            some (s.take pat.length ++ dq :: (inner ++ [dq]), dq :: (inner ++ [dq]))
          else none
        else if c = sq then
          let inner := r2.takeWhile (fun x => x ≠ sq)
          if !inner.isEmpty && startsWithCS [sq] (r2.drop inner.length) then
            some (s.take pat.length ++ sq :: (inner ++ [sq]), sq :: (inner ++ [sq]))
          else none
        else none
  else none

/-- Left-to-right scan of all positions of `s` with the match attempt
`tm`, returning the first successful match: the semantics of a single
(non-global) JavaScript regex `match`. -/
def findFirst (tm : List Char → Option (List Char × List Char)) :
    List Char → Option (List Char × List Char)
  | [] => tm []
  | c :: t =>
    match tm (c :: t) with
    | some r => some r
    | none => findFirst tm t

/-- JavaScript `String.prototype.replace` with a plain-string pattern
and empty replacement: delete the first literal occurrence of `pat`. -/
def replaceFirst (pat : List Char) : List Char → List Char
  | [] => []
  | c :: t =>
    if startsWithCS pat (c :: t) then (c :: t).drop pat.length
    else c :: replaceFirst pat t

/-- `value.replace(/["']/g, '')`: remove every quote character. -/
def stripQuotesAll (v : List Char) : List Char := v.filter (fun c => !isQuoteChar c)

/-- A character matched by the JS regex `.` (no line terminators;
restricted to ASCII). -/
def dotChar (c : Char) : Bool := c ≠ '\n' && c ≠ '\r'

/-- `value.replace(/^["'](.*)["']$/, '$1')`: if the value starts and
ends with a (not necessarily matching) quote character and its interior
contains no line terminator, drop the first and last character;
otherwise leave it unchanged. -/
def stripSurround (v : List Char) : List Char :=
  if 2 ≤ v.length && isQuoteChar (v.headD ' ') && isQuoteChar (v.getLastD ' ')
      && (v.drop 1).dropLast.all dotChar then
    (v.drop 1).dropLast
  else v

/-- The client-side SearchFilters record as produced by
parseSearchQuery (the page/limit fields are never set by the parser and
are kept outside of it, as in useSearch). -/
structure SearchFilters where
  query : List Char
  date : Option (List Char)
  time : Option (List Char)
  title : Option (List Char)
  url : Option (List Char)
deriving Repr, DecidableEq

/-- The literal part of the date pattern /date:([^\s]+)/i. -/
def datePat : List Char := ['d', 'a', 't', 'e', ':']

/-- The literal part of the time pattern /time:([^\s]+)/i. -/
def timePat : List Char := ['t', 'i', 'm', 'e', ':']

/-- The literal part of the title pattern /title:([^\s]+|"[^"]+"|'[^']+')/i. -/
def titlePat : List Char := ['t', 'i', 't', 'l', 'e', ':']

/-- The literal part of the url pattern /url:([^\s]+|"[^"]+"|'[^']+')/i. -/
def urlPat : List Char := ['u', 'r', 'l', ':']

/-- One extraction step of parseSearchQuery for the `date:`/`time:`
patterns: on a match, the captured value has all quote characters
removed and the whole matched text is deleted (first literal occurrence)
from the working string. -/
def extractSimple (pat : List Char) (q : List Char) : Option (List Char) × List Char :=
  match findFirst (tryMatchSimple pat) q with
  | some (m, v) => (some (stripQuotesAll v), replaceFirst m q)
  | none => (none, q)

/-- One extraction step of parseSearchQuery for the `title:`/`url:`
patterns: on a match, surrounding quotes are stripped from the captured
value and the whole matched text is deleted from the working string. -/
def extractQuoted (pat : List Char) (q : List Char) : Option (List Char) × List Char :=
  match findFirst (tryMatchQuoted pat) q with
  | some (m, v) => (some (stripSurround v), replaceFirst m q)
  | none => (none, q)

/-- parseSearchQuery from client/src/lib/filters.ts: extract date, time,
title and url in that order, each step rewriting the working string; the
trimmed remainder is the free-text query. -/
def parseSearchQuery (q : List Char) : SearchFilters :=
  let d := extractSimple datePat q
  let t := extractSimple timePat d.2
  let ti := extractQuoted titlePat t.2
  let u := extractQuoted urlPat ti.2
  { query := trim u.2, date := d.1, time := t.1, title := ti.1, url := u.1 }

/-- One match attempt at the head of `s` of the dynamically built,
case-sensitive regex `` `${key}:[^\s]+` `` used by addFilter/useSearch
(no `/i` flag there). -/
def tryMatchCS (pat : List Char) (s : List Char) : Option (List Char × List Char) :=
  if startsWithCS pat s then
    let run := (s.drop pat.length).takeWhile (fun c => !jsSpace c)
    if run.isEmpty then none else some (pat ++ run, run)
  else none

/-- Worker for global regex replacement by the empty string: `skip`
counts characters of an already-recognized match still to be dropped;
when `skip = 0`, a fresh match attempt is made at the current position
(JS `replace` with the `g` flag resumes scanning after each match). -/
def removeAllAux (pat : List Char) : Nat → List Char → List Char
  | _ + 1, [] => []
  | k + 1, _ :: t => removeAllAux pat k t
  | 0, [] => []
  | 0, c :: t =>
    match tryMatchCS pat (c :: t) with
    | some (m, _) => removeAllAux pat (m.length - 1) t
    | none => c :: removeAllAux pat 0 t

/-- `prev.replace(new RegExp(`${key}:[^\s]+`, 'g'), '')` where
`pat = key ++ ":"`. -/
def removeAllCS (pat : List Char) (s : List Char) : List Char := removeAllAux pat 0 s

/-- addFilter from client/src/hooks/useSearch.ts, acting on the
canonical query string: remove every token matching `` `${key}:[^\s]+` ``
(case-sensitively, globally), trim, then append `` ` ${key}:${value}` ``
and trim again.  (The accompanying page reset is handled outside the
string and outside these claims.) -/
def addFilter (prev : List Char) (key : List Char) (value : List Char) : List Char :=
  let cleaned := trim (removeAllCS (key ++ [':']) prev)
  trim (cleaned ++ ' ' :: (key ++ ':' :: value))

/-! ## Server side: storage rows, retrieval planner, capture flag, route -/

/-- A row of the screenshot_entries table (shared/schema).  Timestamps
are embedded as integer milliseconds since the epoch; nullable text
columns as `Option`. -/
structure DbRow where
  id : Int
  timestamp : Int
  title : Option (List Char)
  app_name : Option (List Char)
  window_title : Option (List Char)
  url : Option (List Char)
  extracted_text : Option (List Char)
  image_path : List Char
deriving Repr, DecidableEq

/-- The client-facing entry shape produced by the storage layer's map
step. -/
structure ClientEntry where
  id : Int
  timestamp : Int
  title : Option (List Char)
  appName : Option (List Char)
  windowTitle : Option (List Char)
  url : Option (List Char)
  extractedText : Option (List Char)
  imagePath : List Char
deriving Repr, DecidableEq

/-- JavaScript `x || null` on a nullable string: the empty string is
falsy and also becomes null. -/
def orNull (o : Option (List Char)) : Option (List Char) :=
  match o with
  | some v => if v.isEmpty then none else some v
  | none => none

/-- The `entries.map(entry => ({...}))` step of the storage layer. -/
def toClientEntry (r : DbRow) : ClientEntry :=
  { id := r.id, timestamp := r.timestamp, title := orNull r.title,
    appName := orNull r.app_name, windowTitle := orNull r.window_title,
    url := orNull r.url, extractedText := orNull r.extracted_text,
    imagePath := r.image_path }

/-- The zod-validated SearchFilters used by the server
(searchFiltersSchema): optional strings plus numeric page/limit with
defaults 1 and 12.  page/limit are embedded as integers (the schema
accepts any number; the claims under verification constrain them to be
at least 1). -/
structure ServerFilters where
  query : Option (List Char)
  date : Option (List Char)
  time : Option (List Char)
  title : Option (List Char)
  url : Option (List Char)
  page : Int
  limit : Int
deriving Repr, DecidableEq

/-- `containsCS pat s`: `pat` occurs literally in `s` — the semantics of
SQL `LIKE '%pat%'` (case-sensitive, as Postgres LIKE is). -/
def containsCS (pat : List Char) : List Char → Bool
  | [] => startsWithCS pat []
  | c :: t => startsWithCS pat (c :: t) || containsCS pat t

/-- SQL `column LIKE '%pat%'` on a nullable column: NULL never
matches. -/
def likeContains (col : Option (List Char)) (pat : List Char) : Bool :=
  match col with
  | some s => containsCS pat s
  | none => false

/-- JavaScript truthiness of an optional string (`if (query)` skips both
undefined and the empty string). -/
def present (o : Option (List Char)) : Bool :=
  match o with
  | some v => !v.isEmpty
  | none => false

/-- Milliseconds per day. -/
def msPerDay : Int := 86400000

/-- SQL `DATE(timestamp)`, modelled as truncation of the millisecond
timestamp to a (UTC) day index. -/
def dayIndex (ms : Int) : Int := ms.fdiv msPerDay

/-- SQL `TIME(timestamp)`: the clock-time component in milliseconds. -/
def timeOfDay (ms : Int) : Int := ms.emod msPerDay

/-- All-digit, nonempty string to a natural number. -/
def parseNatDigits (s : List Char) : Option Nat :=
  if !s.isEmpty && s.all Char.isDigit then
    some (s.foldl (fun a c => a * 10 + (c.toNat - 48)) 0)
  else none

/-- Day index of a civil date (standard era-based calendar algorithm),
days since 1970-01-01. -/
def daysFromCivil (y m d : Int) : Int :=
  let y2 := if m ≤ 2 then y - 1 else y
  let era := y2.fdiv 400
  let yoe := y2 - era * 400
  let mp := if 2 < m then m - 3 else m + 9
  let doy := (153 * mp + 2).fdiv 5 + d - 1
  let doe := yoe * 365 + yoe.fdiv 4 - yoe.fdiv 100 + doy
  era * 146097 + doe - 719468

/-- SQL `DATE(text)` on a date string, modelled for ISO `YYYY-MM-DD`
input: the day index, or none when the string is not of that shape (in
which case the comparison never holds). -/
def parseDateYMD (s : List Char) : Option Int :=
  match s.splitOn '-' with
  | [ys, ms, ds] =>
    match parseNatDigits ys, parseNatDigits ms, parseNatDigits ds with
    | some y, some m, some d =>
      if 1 ≤ m && m ≤ 12 && 1 ≤ d && d ≤ 31 then
        some (daysFromCivil (Int.ofNat y) (Int.ofNat m) (Int.ofNat d))
      else none
    | _, _, _ => none
  | _ => none

/-- SQL `TIME(text)`, modelled for `HH:MM` and `HH:MM:SS(.sss)` input:
milliseconds of day, or none for any other shape (in which case the
comparison never holds). -/
def parseClock (s : List Char) : Option Int :=
  match s.splitOn ':' with
  | [hs, ms] =>
    match parseNatDigits hs, parseNatDigits ms with
    | some h, some m =>
      if h ≤ 23 && m ≤ 59 then some ((Int.ofNat h * 60 + Int.ofNat m) * 60000) else none
    | _, _ => none
  | [hs, ms, rest] =>
    let ss := rest.takeWhile Char.isDigit
    match parseNatDigits hs, parseNatDigits ms, parseNatDigits ss with
    | some h, some m, some sec =>
      if h ≤ 23 && m ≤ 59 && sec ≤ 59 then
        some (((Int.ofNat h * 60 + Int.ofNat m) * 60 + Int.ofNat sec) * 1000)
      else none
    | _, _, _ => none
  | _ => none

/-- The time-filter predicate of searchEntries.  A value containing a
dash is treated as a range `start-end` (split at dashes, first two
parts); otherwise a ±1-minute window around the single clock time is
used, built in the source via Date/toISOString round-trips, which the
model folds into clock arithmetic modulo one day.  (A single time the
Date constructor cannot parse would make the source throw inside the
route's try/catch; the model conservatively makes the predicate
unsatisfiable instead — no claim depends on that path.) -/
def timeFilterPred (t : List Char) (ts : Int) : Bool :=
  if t.contains '-' then
    let startS := t.takeWhile (fun c => c ≠ '-')
    let endS := (t.drop (startS.length + 1)).takeWhile (fun c => c ≠ '-')
    match parseClock startS, parseClock endS with
    | some a, some b => decide (a ≤ timeOfDay ts) && decide (timeOfDay ts ≤ b)
    | _, _ => false
  else
    match parseClock t with
    | some a =>
      decide ((a - 60000).emod msPerDay ≤ timeOfDay ts) &&
        decide (timeOfDay ts ≤ (a + 60000).emod msPerDay)
    | none => false

/-- The conjunction of the filter conditions searchEntries chains onto
its query builder (text search over five columns, day equality, time
window, title substring, url substring); absent or empty-string filters
impose no condition. -/
def rowMatchesSearch (f : ServerFilters) (r : DbRow) : Bool :=
  (match f.query with
   | some q =>
     if q.isEmpty then true
     else likeContains r.title q || likeContains r.window_title q ||
       likeContains r.app_name q || likeContains r.url q ||
       likeContains r.extracted_text q
   | none => true) &&
  (match f.date with
   | some d =>
     if d.isEmpty then true
     else
       match parseDateYMD d with
       | some day => decide (dayIndex r.timestamp = day)
       | none => false
   | none => true) &&
  (match f.time with
   | some t => if t.isEmpty then true else timeFilterPred t r.timestamp
   | none => true) &&
  (match f.title with
   | some ti => if ti.isEmpty then true else likeContains r.title ti
   | none => true) &&
  (match f.url with
   | some u => if u.isEmpty then true else likeContains r.url u
   | none => true)

/-- ORDER BY timestamp DESC: the relation "a may come before b". -/
def tsGe (a b : DbRow) : Prop := b.timestamp ≤ a.timestamp

instance : DecidableRel tsGe := fun a b => inferInstanceAs (Decidable (b.timestamp ≤ a.timestamp))

instance : IsTotal DbRow tsGe := ⟨fun a b => Int.le_total b.timestamp a.timestamp⟩

instance : IsTrans DbRow tsGe := ⟨fun _ _ _ h1 h2 => le_trans h2 h1⟩

/-- The ordered result set of the SQL query (ORDER BY timestamp DESC). -/
def sortDescByTimestamp (l : List DbRow) : List DbRow := l.insertionSort tsGe

/-- The rows matching the WHERE clauses of searchEntries. -/
def matchingRows (store : List DbRow) (f : ServerFilters) : List DbRow :=
  store.filter (rowMatchesSearch f)

/-- The rows actually fetched by searchEntries:
`LIMIT limit + 1 OFFSET (page - 1) * limit` over the ordered matching
rows. -/
def fetchedRows (store : List DbRow) (f : ServerFilters) : List DbRow :=
  ((sortDescByTimestamp (matchingRows store f)).drop ((f.page - 1) * f.limit).toNat).take
    (f.limit + 1).toNat

/-- The response shape of the retrieval planner. -/
structure SearchResult where
  entries : List ClientEntry
  hasMore : Bool
  currentDate : List Char
deriving Repr, DecidableEq

/-- DatabaseStorage.searchEntries: fetch limit+1 ordered matching rows
at offset (page-1)*limit, set hasMore when more than limit arrived, and
truncate to limit rows in that case.  `today` stands for the impure
`new Date().toISOString().split('T')[0]` fallback. -/
def searchEntries (today : List Char) (store : List DbRow) (f : ServerFilters) : SearchResult :=
  let fetched := fetchedRows store f
  let hasMore := decide (f.limit < (fetched.length : Int))
  { entries := (if hasMore then fetched.take f.limit.toNat else fetched).map toClientEntry,
    hasMore := hasMore,
    currentDate := match f.date with
      | some d => if d.isEmpty then today else d
      | none => today }

/-- DatabaseStorage.getTimelineEntries: same fetch-one-extra pagination
over the rows of one calendar day (`DATE(timestamp) = DATE(date)`,
defaulting to today). -/
def getTimelineEntries (today : List Char) (store : List DbRow) (date : Option (List Char))
    (page limit : Int) : SearchResult :=
  let currentDate := match date with
    | some d => if d.isEmpty then today else d
    | none => today
  let rows := store.filter (fun r =>
    match parseDateYMD currentDate with
    | some day => decide (dayIndex r.timestamp = day)
    | none => false)
  let fetched := ((sortDescByTimestamp rows).drop ((page - 1) * limit).toNat).take
    (limit + 1).toNat
  let hasMore := decide (limit < (fetched.length : Int))
  { entries := (if hasMore then fetched.take limit.toNat else fetched).map toClientEntry,
    hasMore := hasMore,
    currentDate := currentDate }

/-- The capture status payload. -/
structure CaptureStatus where
  active : Bool
deriving Repr, DecidableEq

/-- `private captureActive: boolean = true` — the flag's value at
process start. -/
def initialCaptureActive : Bool := true

/-- DatabaseStorage.getCaptureStatus, as an explicit state transformer
on the flag: returns the payload and the (unchanged) flag. -/
def getCaptureStatus (captureActive : Bool) : CaptureStatus × Bool :=
  ({ active := captureActive }, captureActive)

/-- DatabaseStorage.toggleCaptureStatus: flip the flag, then report the
new value. -/
def toggleCaptureStatus (captureActive : Bool) : CaptureStatus × Bool :=
  ({ active := !captureActive }, !captureActive)

/-! ## The /api/search route: parseInt, zod validation, dispatch -/

/-- JavaScript `parseInt` (radix 10 behaviour: skip whitespace, optional
sign, maximal run of leading decimal digits; no digits gives NaN,
modelled as none). -/
def parseIntJS (s : List Char) : Option Int :=
  let t := s.dropWhile jsSpace
  let core := fun (u : List Char) =>
    (parseNatDigits (u.takeWhile Char.isDigit)).map Int.ofNat
  match t with
  | '-' :: r => (core r).map Int.neg
  | '+' :: r => core r
  | r => core r

/-- The raw query-string parameters of a /api/search request (each
present or absent, all textual). -/
structure RawSearchQuery where
  query : Option (List Char)
  date : Option (List Char)
  time : Option (List Char)
  title : Option (List Char)
  url : Option (List Char)
  page : Option (List Char)
  limit : Option (List Char)
deriving Repr, DecidableEq

/-- The route's filter extraction plus searchFiltersSchema.parse: string
fields pass through; `page`/`limit` go through the JS truthiness test
`req.query.page ? parseInt(req.query.page) : undefined`, so an absent
or empty (falsy) parameter is dropped and then defaulted to 1 / 12 by
the schema, while a present nonempty one must parseInt to a number
(`z.number()` rejects NaN).  A failure is the ZodError branch. -/
def validateSearch (raw : RawSearchQuery) : Except (List Char) ServerFilters :=
  let pageV : Except (List Char) Int :=
    match raw.page with
    | none => .ok 1
    | some s =>
      if s.isEmpty then .ok 1
      else
        match parseIntJS s with
        | some n => .ok n
        | none => .error (String.toList "Expected number, received nan")
  let limitV : Except (List Char) Int :=
    match raw.limit with
    | none => .ok 12
    | some s =>
      if s.isEmpty then .ok 12
      else
        match parseIntJS s with
        | some n => .ok n
        | none => .error (String.toList "Expected number, received nan")
  match pageV, limitV with
  | .ok p, .ok l =>
    .ok { query := raw.query, date := raw.date, time := raw.time, title := raw.title,
          url := raw.url, page := p, limit := l }
  | .error e, _ => .error e
  | _, .error e => .error e

/-- The observable outcome of one /api/search request. -/
structure RouteResponse where
  status : Nat
  searchAttempted : Bool
  result : Option SearchResult
deriving Repr, DecidableEq

/-- The /api/search handler: validation failures are answered with 400
(the `error instanceof ZodError` branch) before storage is consulted;
valid filters are dispatched to storage.searchEntries with 200.  (The
catch-all 500 branch fires only for storage faults, which the total
model cannot produce.) -/
def searchRoute (today : List Char) (store : List DbRow) (raw : RawSearchQuery) :
    RouteResponse :=
  match validateSearch raw with
  | .error _ => { status := 400, searchAttempted := false, result := none }
  | .ok f => { status := 200, searchAttempted := true,
               result := some (searchEntries today store f) }

/-! ## Canonical rendering (modelled from the spec) -/

/-- Modelled from the spec: wrap a value in double quotes when it
contains embedded whitespace, as the grammar of §4.1/§6 prescribes for
values with spaces. -/
def quoteIfNeeded (v : List Char) : List Char :=
  if v.any jsSpace then dq :: (v ++ [dq]) else v

/-- Modelled from the spec: append one `prefix:value` token (absent
filters contribute nothing), whitespace-separating it from what is
already rendered. -/
def catTok (s : List Char) (pat : List Char) (o : Option (List Char)) : List Char :=
  match o with
  | none => s
  | some v => if s.isEmpty then pat ++ quoteIfNeeded v else s ++ ' ' :: (pat ++ quoteIfNeeded v)

/-- Modelled from the spec: the repository has no explicit render
function (the canonical string is only ever edited in place), so the
`toCanonicalString` the round-trip claim quantifies over is modelled
from the spec's grammar: whitespace-separated tokens, free text first,
then one `prefix:value` token per present filter in the order
date, time, title, url, quoting values that contain spaces. -/
def toCanonicalString (f : SearchFilters) : List Char :=
  catTok (catTok (catTok (catTok f.query datePat f.date) timePat f.time) titlePat f.title)
    urlPat f.url

/-! ## Predicates and shapes used by the parser proofs -/

/-- A list that is empty or starts with a whitespace character — the
shape of everything that can follow a filter token in a rendered
canonical string. -/
def SpHead : List Char → Prop
  | [] => True
  | c :: _ => jsSpace c = true

/-- `NoCIStart P A R`: scanning the positions of `A` (each continued by
the rest of `A` and then `R`), the pattern literal `P` never matches
case-insensitively.  This is the invariant that lets a left-to-right
regex scan skip over `A`. -/
def NoCIStart (P : List Char) : List Char → List Char → Prop
  | [], _ => True
  | c :: t, R => startsWithCI P ((c :: t) ++ R) = false ∧ NoCIStart P t R

/-- `alienTok P K`: at no suffix of `K` does the pattern literal `P`
begin a case-insensitive match, even allowing arbitrary continuation
beyond `K` (each comparison is truncated to the suffix, so this is a
closed, decidable fact about the two literals).  Holds for every pair of
distinct filter prefixes. -/
def alienTok (P : List Char) : List Char → Bool
  | [] => true
  | c :: t => !startsWithBy lowEq (P.take (t.length + 1)) (c :: t) && alienTok P t

/-- A whitespace-free, quote-free, colon-free, nonempty value: the
class of filter values for which the amended parsing claims hold. -/
def cleanWord (v : List Char) : Prop :=
  v ≠ [] ∧ ∀ c ∈ v, jsSpace c = false ∧ c ≠ dq ∧ c ≠ sq ∧ c ≠ ':'

instance : DecidablePred cleanWord := fun v =>
  inferInstanceAs (Decidable (v ≠ [] ∧ ∀ c ∈ v, jsSpace c = false ∧ c ≠ dq ∧ c ≠ sq ∧ c ≠ ':'))

/-- A filter value that is safely re-parseable: nonempty, free of
whitespace and of quote characters, and containing no (case-insensitive)
occurrence of any of the four filter prefixes.  Unlike `cleanWord` this
admits colons, as used by time-range values. -/
def safeVal (v : List Char) : Prop :=
  v ≠ [] ∧ (∀ c ∈ v, jsSpace c = false ∧ c ≠ dq ∧ c ≠ sq) ∧
  containsCI datePat v = false ∧ containsCI timePat v = false ∧
  containsCI titlePat v = false ∧ containsCI urlPat v = false

instance : DecidablePred safeVal := fun v =>
  inferInstanceAs (Decidable (v ≠ [] ∧ (∀ c ∈ v, jsSpace c = false ∧ c ≠ dq ∧ c ≠ sq) ∧
    containsCI datePat v = false ∧ containsCI timePat v = false ∧
    containsCI titlePat v = false ∧ containsCI urlPat v = false))

/-- The tail of a rendered canonical string: a whitespace separator then
one `prefix ++ value` token, repeated. -/
def renderTail : List (List Char × List Char) → List Char
  | [] => []
  | (P, v) :: rest => ' ' :: ((P ++ v) ++ renderTail rest)

/-- The token contributed by one optional filter value. -/
def optTok (P : List Char) : Option (List Char) → List (List Char × List Char)
  | none => []
  | some v => [(P, v)]

/-! ## Character and prefix-scan lemmas -/

theorem startsWithBy_nil (eq : Char → Char → Bool) (s : List Char) :
    startsWithBy eq [] s = true := by
  cases s <;> rfl

theorem startsWithBy_cons (eq : Char → Char → Bool) (p c : Char) (ps cs : List Char) :
    startsWithBy eq (p :: ps) (c :: cs) = (eq p c && startsWithBy eq ps cs) := rfl

theorem startsWithBy_nil_right (eq : Char → Char → Bool) {P : List Char} (h : P ≠ []) :
    startsWithBy eq P [] = false := by
  cases P with
  | nil => exact absurd rfl h
  | cons p ps => rfl

theorem startsWithBy_short (eq : Char → Char → Bool) :
    ∀ (P s : List Char), s.length < P.length → startsWithBy eq P s = false
  | [], s, h => by simp at h
  | p :: ps, [], _ => rfl
  | p :: ps, c :: cs, h => by
    rw [startsWithBy_cons]
    rcases hpc : eq p c with _ | _
    · rfl
    · have := startsWithBy_short eq ps cs (by simpa using Nat.lt_of_succ_lt_succ h)
      simp [this]

theorem startsWithBy_append_left (eq : Char → Char → Bool) :
    ∀ (P A : List Char) (B : List Char), P.length ≤ A.length →
      startsWithBy eq P (A ++ B) = startsWithBy eq P A
  | [], A, B, _ => by rw [startsWithBy_nil, startsWithBy_nil]
  | p :: ps, [], B, h => by simp at h
  | p :: ps, a :: as, B, h => by
    rw [List.cons_append, startsWithBy_cons, startsWithBy_cons,
      startsWithBy_append_left eq ps as B (by simpa using Nat.le_of_succ_le_succ h)]

theorem startsWithBy_self_append (eq : Char → Char → Bool) (hrefl : ∀ c, eq c c = true) :
    ∀ (P X : List Char), startsWithBy eq P (P ++ X) = true
  | [], X => by rw [startsWithBy_nil]
  | p :: ps, X => by
    rw [List.cons_append, startsWithBy_cons, hrefl, startsWithBy_self_append eq hrefl ps X]
    rfl

theorem startsWithBy_append_false (eq : Char → Char → Bool) :
    ∀ (A P X : List Char), startsWithBy eq (P.take A.length) A = false →
      startsWithBy eq P (A ++ X) = false
  | [], P, X, h => by
    simp only [List.length_nil, List.take_zero] at h
    rw [startsWithBy_nil] at h
    cases h
  | a :: as, [], X, h => by rw [List.take_nil] at h; rw [startsWithBy_nil] at h; cases h
  | a :: as, p :: ps, X, h => by
    rw [List.length_cons, List.take_succ_cons, startsWithBy_cons] at h
    rw [List.cons_append, startsWithBy_cons]
    rcases hpa : eq p a with _ | _
    · rfl
    · rw [hpa] at h
      simp only [Bool.true_and] at h ⊢
      exact startsWithBy_append_false eq as ps X h

theorem startsWithBy_pat_append {eq : Char → Char → Bool} :
    ∀ {P1 P2 s : List Char}, startsWithBy eq (P1 ++ P2) s = true →
      startsWithBy eq P1 s = true
  | [], _, s, _ => startsWithBy_nil eq s
  | p :: ps, P2, [], h => by rw [List.cons_append] at h; cases h
  | p :: ps, P2, c :: cs, h => by
    rw [List.cons_append, startsWithBy_cons] at h
    rw [startsWithBy_cons]
    rcases Bool.and_eq_true_iff.mp h with ⟨h1, h2⟩
    rw [h1, startsWithBy_pat_append h2]
    rfl

theorem startsWithCS_imp_CI : ∀ {P s : List Char},
    startsWithCS P s = true → startsWithCI P s = true
  | [], s, _ => startsWithBy_nil lowEq s
  | p :: ps, [], h => by cases h
  | p :: ps, c :: cs, h => by
    unfold startsWithCS at h
    unfold startsWithCI
    rw [startsWithBy_cons] at h
    rw [startsWithBy_cons]
    rcases Bool.and_eq_true_iff.mp h with ⟨h1, h2⟩
    have : p = c := by simpa using h1
    subst this
    have := startsWithCS_imp_CI (P := ps) (s := cs) h2
    unfold startsWithCI at this
    simp [lowEq, this]

theorem char_toLower_of_not_upper {x : Char} (h : ¬(65 ≤ x.toNat ∧ x.toNat ≤ 90)) :
    x.toLower = x := by
  unfold Char.toLower
  rw [if_neg h]

theorem char_toLower_eq_of_lt {c : Char} (h : c.toNat < 65) : c.toLower = c :=
  char_toLower_of_not_upper (by omega)

theorem char_toNat_toLower_upper {x : Char} (hup : 65 ≤ x.toNat ∧ x.toNat ≤ 90) :
    x.toLower.toNat = x.toNat + 32 := by
  unfold Char.toLower
  rw [if_pos hup, Char.ofNat, dif_pos (Or.inl (by omega : x.toNat + 32 < 0xd800))]
  rfl

theorem lowEq_special {c x : Char} (hc : c.toNat < 65) (h : lowEq x c = true) : x = c := by
  unfold lowEq at h
  have hx : x.toLower = c.toLower := by simpa using h
  rw [char_toLower_eq_of_lt hc] at hx
  by_cases hup : 65 ≤ x.toNat ∧ x.toNat ≤ 90
  · exfalso
    have h1 := char_toNat_toLower_upper hup
    rw [hx] at h1
    omega
  · rw [char_toLower_of_not_upper hup] at hx
    exact hx

theorem jsSpace_toNat_lt {b : Char} (h : jsSpace b = true) : b.toNat < 65 := by
  simp only [jsSpace, Bool.or_eq_true, decide_eq_true_eq] at h
  rcases h with ((((h | h) | h) | h) | h) | h <;> subst h <;> decide

theorem lowEq_space {p b : Char} (hb : jsSpace b = true) (hp : jsSpace p = false) :
    lowEq p b = false := by
  rcases h : lowEq p b with _ | _
  · rfl
  · exfalso
    have := lowEq_special (jsSpace_toNat_lt hb) h
    subst this
    rw [hb] at hp
    cases hp

theorem startsWithCI_space_head {P : List Char} {b : Char} (X : List Char)
    (hPne : P ≠ []) (hP : ∀ c ∈ P, jsSpace c = false) (hb : jsSpace b = true) :
    startsWithCI P (b :: X) = false := by
  cases P with
  | nil => exact absurd rfl hPne
  | cons p ps =>
    show startsWithBy lowEq (p :: ps) (b :: X) = false
    rw [startsWithBy_cons, lowEq_space hb (hP p (List.mem_cons_self p ps))]
    rfl

theorem startsWithCI_into_space :
    ∀ (P A : List Char) (b : Char) (B : List Char), (∀ c ∈ P, jsSpace c = false) →
      A.length < P.length → jsSpace b = true → startsWithCI P (A ++ b :: B) = false
  | P, [], b, B, hP, hlen, hb => by
    apply startsWithCI_space_head B _ hP hb
    intro h
    rw [h] at hlen
    simp at hlen
  | P, a :: as, b, B, hP, hlen, hb => by
    cases P with
    | nil => simp at hlen
    | cons p ps =>
      show startsWithBy lowEq (p :: ps) (a :: (as ++ b :: B)) = false
      rw [startsWithBy_cons]
      have : startsWithCI ps (as ++ b :: B) = false :=
        startsWithCI_into_space ps as b B (fun c hc => hP c (List.mem_cons_of_mem p hc))
          (by simpa using Nat.lt_of_succ_lt_succ hlen) hb
      unfold startsWithCI at this
      rw [this]
      simp

theorem noCIStart_nil (P R : List Char) : NoCIStart P [] R := trivial

theorem noCIStart_cons {P R : List Char} {c : Char} {t : List Char} :
    NoCIStart P (c :: t) R ↔
      (startsWithCI P ((c :: t) ++ R) = false ∧ NoCIStart P t R) := Iff.rfl

theorem noCIStart_append {P : List Char} :
    ∀ {A B R : List Char}, NoCIStart P A (B ++ R) → NoCIStart P B R →
      NoCIStart P (A ++ B) R
  | [], B, R, _, hB => by simpa using hB
  | a :: t, B, R, hA, hB => by
    rw [List.cons_append, noCIStart_cons]
    refine ⟨?_, noCIStart_append hA.2 hB⟩
    have := hA.1
    simp only [List.cons_append, List.append_assoc] at this ⊢
    exact this

theorem containsCI_nil (P : List Char) : containsCI P [] = startsWithCI P [] := rfl

theorem containsCI_cons (P : List Char) (c : Char) (t : List Char) :
    containsCI P (c :: t) = (startsWithCI P (c :: t) || containsCI P t) := rfl

theorem noCIStart_of_contains {P : List Char} (hP1 : P ≠ [])
    (hP2 : ∀ c ∈ P, jsSpace c = false) :
    ∀ {A : List Char} {R : List Char}, containsCI P A = false → SpHead R →
      NoCIStart P A R
  | [], R, _, _ => noCIStart_nil P R
  | a :: t, R, hc, hR => by
    rw [containsCI_cons, Bool.or_eq_false_iff] at hc
    rw [noCIStart_cons]
    refine ⟨?_, noCIStart_of_contains hP1 hP2 hc.2 hR⟩
    by_cases hlen : P.length ≤ (a :: t).length
    · show startsWithBy lowEq P ((a :: t) ++ R) = false
      rw [startsWithBy_append_left lowEq P (a :: t) R hlen]
      exact hc.1
    · cases R with
      | nil => rw [List.append_nil]; exact hc.1
      | cons r rs =>
        exact startsWithCI_into_space P (a :: t) r rs hP2 (by omega) hR

theorem containsCI_false_of_spaces {P : List Char} (hP1 : P ≠ [])
    (hP2 : ∀ c ∈ P, jsSpace c = false) :
    ∀ {A : List Char}, (∀ c ∈ A, jsSpace c = true) → containsCI P A = false
  | [], _ => by
    rw [containsCI_nil]
    exact startsWithBy_nil_right lowEq hP1
  | a :: t, hA => by
    rw [containsCI_cons, Bool.or_eq_false_iff]
    exact ⟨startsWithCI_space_head t hP1 hP2 (hA a (List.mem_cons_self a t)),
      containsCI_false_of_spaces hP1 hP2 fun c hc => hA c (List.mem_cons_of_mem a hc)⟩

theorem alienTok_cons {P : List Char} {c : Char} {t : List Char} :
    alienTok P (c :: t) = (!startsWithBy lowEq (P.take (t.length + 1)) (c :: t) && alienTok P t) := rfl

theorem noCIStart_of_alien {P : List Char} (hP1 : P ≠ [])
    (hP2 : ∀ c ∈ P, jsSpace c = false) :
    ∀ {K : List Char} {v R : List Char}, alienTok P K = true → containsCI P v = false →
      SpHead R → NoCIStart P (K ++ v) R
  | [], v, R, _, hv, hR => by simpa using noCIStart_of_contains hP1 hP2 hv hR
  | c :: t, v, R, hK, hv, hR => by
    rw [alienTok_cons, Bool.and_eq_true_iff, Bool.not_eq_true'] at hK
    rw [List.cons_append, noCIStart_cons]
    refine ⟨?_, noCIStart_of_alien hP1 hP2 hK.2 hv hR⟩
    show startsWithBy lowEq P ((c :: (t ++ v)) ++ R) = false
    have : (c :: (t ++ v)) ++ R = (c :: t) ++ (v ++ R) := by simp
    rw [this]
    exact startsWithBy_append_false lowEq (c :: t) P (v ++ R) (by simpa using hK.1)

theorem tryMatchSimple_none {P s : List Char} (h : startsWithCI P s = false) :
    tryMatchSimple P s = none := by
  simp [tryMatchSimple, h]

theorem tryMatchQuoted_none {P s : List Char} (h : startsWithCI P s = false) :
    tryMatchQuoted P s = none := by
  simp [tryMatchQuoted, h]

theorem tryMatchCS_none {P s : List Char} (h : startsWithCI P s = false) :
    tryMatchCS P s = none := by
  have hcs : startsWithCS P s = false := by
    rcases h2 : startsWithCS P s with _ | _
    · rfl
    · rw [startsWithCS_imp_CI h2] at h; cases h
  simp [tryMatchCS, hcs]

theorem findFirst_cons (tm : List Char → Option (List Char × List Char)) (c : Char)
    (t : List Char) :
    findFirst tm (c :: t) = (match tm (c :: t) with
      | some r => some r
      | none => findFirst tm t) := rfl

theorem findFirst_skip {P : List Char} (tm : List Char → Option (List Char × List Char))
    (hgate : ∀ s, startsWithCI P s = false → tm s = none) :
    ∀ {A R : List Char}, NoCIStart P A R → findFirst tm (A ++ R) = findFirst tm R
  | [], R, _ => rfl
  | a :: t, R, h => by
    rw [List.cons_append, findFirst_cons]
    have h1 : tm (a :: (t ++ R)) = none := by
      apply hgate
      have := h.1
      simpa using this
    rw [h1]
    exact findFirst_skip tm hgate h.2

theorem findFirst_none {P : List Char} (hP1 : P ≠ [])
    (tm : List Char → Option (List Char × List Char))
    (hgate : ∀ s, startsWithCI P s = false → tm s = none)
    {s : List Char} (h : NoCIStart P s []) : findFirst tm s = none := by
  have hskip := findFirst_skip tm hgate h
  rw [List.append_nil] at hskip
  rw [hskip]
  show tm [] = none
  exact hgate [] (startsWithBy_nil_right lowEq hP1)

theorem takeWhile_append_all {p : Char → Bool} :
    ∀ {v R : List Char}, (∀ c ∈ v, p c = true) →
      (R = [] ∨ ∃ b B, R = b :: B ∧ p b = false) → (v ++ R).takeWhile p = v
  | [], R, _, hR => by
    rcases hR with rfl | ⟨b, B, rfl, hb⟩
    · rfl
    · simp [List.takeWhile_cons, hb]
  | c :: cs, R, hv, hR => by
    rw [List.cons_append, List.takeWhile_cons, hv c (List.mem_cons_self c cs)]
    simp only [if_true]
    rw [takeWhile_append_all (fun x hx => hv x (List.mem_cons_of_mem c hx)) hR]

theorem lowEq_refl (c : Char) : lowEq c c = true := by simp [lowEq]

theorem startsWithCI_self (P X : List Char) : startsWithCI P (P ++ X) = true :=
  startsWithBy_self_append lowEq lowEq_refl P X

theorem startsWithCS_self (P X : List Char) : startsWithCS P (P ++ X) = true :=
  startsWithBy_self_append _ (fun c => by simp) P X

theorem spHead_cases {Y : List Char} (hY : SpHead Y) :
    Y = [] ∨ ∃ b B, Y = b :: B ∧ (fun c => !jsSpace c) b = false := by
  cases Y with
  | nil => exact Or.inl rfl
  | cons b B =>
    refine Or.inr ⟨b, B, rfl, ?_⟩
    have : jsSpace b = true := hY
    simp [this]

theorem isEmpty_false_of_ne {v : List Char} (h : v ≠ []) : v.isEmpty = false := by
  cases v with
  | nil => exact absurd rfl h
  | cons c cs => rfl

theorem tryMatchSimple_hit {P v Y : List Char} (hv1 : v ≠ [])
    (hv2 : ∀ c ∈ v, jsSpace c = false) (hY : SpHead Y) :
    tryMatchSimple P (P ++ (v ++ Y)) = some (P ++ v, v) := by
  have hrun : (v ++ Y).takeWhile (fun c => !jsSpace c) = v :=
    takeWhile_append_all (fun c hc => by simp [hv2 c hc]) (spHead_cases hY)
  unfold tryMatchSimple
  rw [startsWithCI_self]
  simp only [if_true, List.drop_left, List.take_left, hrun, isEmpty_false_of_ne hv1]
  rfl

theorem tryMatchQuoted_hit {P v Y : List Char} (hv1 : v ≠ [])
    (hv2 : ∀ c ∈ v, jsSpace c = false) (hY : SpHead Y) :
    tryMatchQuoted P (P ++ (v ++ Y)) = some (P ++ v, v) := by
  have hrun : (v ++ Y).takeWhile (fun c => !jsSpace c) = v :=
    takeWhile_append_all (fun c hc => by simp [hv2 c hc]) (spHead_cases hY)
  unfold tryMatchQuoted
  rw [startsWithCI_self]
  simp only [if_true, List.drop_left, List.take_left, hrun, isEmpty_false_of_ne hv1]
  rfl

theorem replaceFirst_cons (pat : List Char) (c : Char) (t : List Char) :
    replaceFirst pat (c :: t) =
      (if startsWithCS pat (c :: t) then (c :: t).drop pat.length
       else c :: replaceFirst pat t) := rfl

theorem replaceFirst_hit {P : List Char} (hP1 : P ≠ []) :
    ∀ {A : List Char} (v Y : List Char), NoCIStart P A ((P ++ v) ++ Y) →
      replaceFirst (P ++ v) (A ++ ((P ++ v) ++ Y)) = A ++ Y
  | [], v, Y, _ => by
    cases P with
    | nil => exact absurd rfl hP1
    | cons p ps =>
      rw [List.nil_append, List.cons_append, List.cons_append, replaceFirst_cons]
      have hs : startsWithCS ((p :: ps) ++ v) ((p :: (ps ++ v)) ++ Y) = true := by
        have := startsWithCS_self ((p :: ps) ++ v) Y
        simpa using this
      simp only [List.cons_append] at hs
      rw [hs]
      simp only [if_true]
      have h4 := List.drop_left ((p :: ps) ++ v) Y
      simp only [List.cons_append, List.append_assoc] at h4 ⊢
      exact h4
  | a :: t, v, Y, h => by
    have hci := h.1
    have hcs : startsWithCS (P ++ v) (a :: (t ++ ((P ++ v) ++ Y))) = false := by
      rcases h2 : startsWithCS (P ++ v) (a :: (t ++ ((P ++ v) ++ Y))) with _ | _
      · rfl
      · exfalso
        have h3 := startsWithCS_imp_CI (startsWithBy_pat_append h2)
        rw [List.cons_append] at hci
        rw [h3] at hci
        cases hci
    rw [List.cons_append, replaceFirst_cons, hcs]
    simp only [Bool.false_eq_true, if_false]
    rw [replaceFirst_hit hP1 v Y h.2]
    simp

theorem toLower_eq_special {c x : Char} (hc : c.toNat < 65) (h : x.toLower = c) : x = c := by
  by_cases hup : 65 ≤ x.toNat ∧ x.toNat ≤ 90
  · exfalso
    have h1 := char_toNat_toLower_upper hup
    rw [h] at h1
    omega
  · rwa [char_toLower_of_not_upper hup] at h

theorem lowEq_special' {c x : Char} (hc : c.toNat < 65) (h : lowEq c x = true) : x = c := by
  unfold lowEq at h
  have hx : c.toLower = x.toLower := by simpa using h
  rw [char_toLower_eq_of_lt hc] at hx
  exact toLower_eq_special hc hx.symm

theorem startsWithCI_colon_mem :
    ∀ {P s : List Char}, startsWithCI P s = true → ':' ∈ P → ∃ c ∈ s, c = ':'
  | [], s, _, hm => absurd hm (List.not_mem_nil ':')
  | p :: ps, [], h, _ => by cases h
  | p :: ps, c :: cs, h, hm => by
    have h' : (lowEq p c && startsWithBy lowEq ps cs) = true := h
    rcases Bool.and_eq_true_iff.mp h' with ⟨h1, h2⟩
    rcases List.mem_cons.mp hm with rfl | hm'
    · exact ⟨c, List.mem_cons_self c cs, lowEq_special' (by decide) h1⟩
    · obtain ⟨d, hd, hdc⟩ := startsWithCI_colon_mem h2 hm'
      exact ⟨d, List.mem_cons_of_mem c hd, hdc⟩

theorem containsCI_false_of_no_colon {P : List Char} (hP : ':' ∈ P) :
    ∀ {v : List Char}, (∀ c ∈ v, c ≠ ':') → containsCI P v = false
  | [], _ => by
    rw [containsCI_nil]
    exact startsWithBy_nil_right lowEq (by rintro rfl; exact List.not_mem_nil ':' hP)
  | c :: t, hv => by
    rw [containsCI_cons, Bool.or_eq_false_iff]
    constructor
    · rcases h : startsWithCI P (c :: t) with _ | _
      · rfl
      · obtain ⟨d, hd, hdc⟩ := startsWithCI_colon_mem h hP
        exact absurd hdc (hv d hd)
    · exact containsCI_false_of_no_colon hP fun x hx => hv x (List.mem_cons_of_mem c hx)

theorem cleanWord_safeVal {v : List Char} (h : cleanWord v) : safeVal v := by
  obtain ⟨h1, h2⟩ := h
  have hnc : ∀ c ∈ v, c ≠ ':' := fun c hc => (h2 c hc).2.2.2
  exact ⟨h1, fun c hc => ⟨(h2 c hc).1, (h2 c hc).2.1, (h2 c hc).2.2.1⟩,
    containsCI_false_of_no_colon (by decide) hnc,
    containsCI_false_of_no_colon (by decide) hnc,
    containsCI_false_of_no_colon (by decide) hnc,
    containsCI_false_of_no_colon (by decide) hnc⟩

theorem extractSimple_hit {P A v Y : List Char} (hP1 : P ≠ [])
    (hA : NoCIStart P A (P ++ (v ++ Y))) (hv1 : v ≠ [])
    (hv2 : ∀ c ∈ v, jsSpace c = false) (hY : SpHead Y) :
    extractSimple P (A ++ (P ++ (v ++ Y))) = (some (stripQuotesAll v), A ++ Y) := by
  have hfind : findFirst (tryMatchSimple P) (A ++ (P ++ (v ++ Y))) = some (P ++ v, v) := by
    rw [findFirst_skip (tryMatchSimple P) (fun _ hs => tryMatchSimple_none hs) hA]
    cases P with
    | nil => exact absurd rfl hP1
    | cons p ps =>
      rw [List.cons_append, findFirst_cons]
      have h1 := tryMatchSimple_hit (P := p :: ps) hv1 hv2 hY
      rw [List.cons_append] at h1
      rw [h1]
  unfold extractSimple
  rw [hfind]
  have hA' : NoCIStart P A ((P ++ v) ++ Y) := by
    rw [show (P ++ v) ++ Y = P ++ (v ++ Y) from List.append_assoc P v Y]
    exact hA
  have hrepl := replaceFirst_hit hP1 v Y hA'
  show (some (stripQuotesAll v), replaceFirst (P ++ v) (A ++ (P ++ (v ++ Y)))) =
    (some (stripQuotesAll v), A ++ Y)
  rw [show P ++ (v ++ Y) = (P ++ v) ++ Y from (List.append_assoc P v Y).symm, hrepl]

theorem extractQuoted_hit {P A v Y : List Char} (hP1 : P ≠ [])
    (hA : NoCIStart P A (P ++ (v ++ Y))) (hv1 : v ≠ [])
    (hv2 : ∀ c ∈ v, jsSpace c = false) (hY : SpHead Y) :
    extractQuoted P (A ++ (P ++ (v ++ Y))) = (some (stripSurround v), A ++ Y) := by
  have hfind : findFirst (tryMatchQuoted P) (A ++ (P ++ (v ++ Y))) = some (P ++ v, v) := by
    rw [findFirst_skip (tryMatchQuoted P) (fun _ hs => tryMatchQuoted_none hs) hA]
    cases P with
    | nil => exact absurd rfl hP1
    | cons p ps =>
      rw [List.cons_append, findFirst_cons]
      have h1 := tryMatchQuoted_hit (P := p :: ps) hv1 hv2 hY
      rw [List.cons_append] at h1
      rw [h1]
  unfold extractQuoted
  rw [hfind]
  have hA' : NoCIStart P A ((P ++ v) ++ Y) := by
    rw [show (P ++ v) ++ Y = P ++ (v ++ Y) from List.append_assoc P v Y]
    exact hA
  have hrepl := replaceFirst_hit hP1 v Y hA'
  show (some (stripSurround v), replaceFirst (P ++ v) (A ++ (P ++ (v ++ Y)))) =
    (some (stripSurround v), A ++ Y)
  rw [show P ++ (v ++ Y) = (P ++ v) ++ Y from (List.append_assoc P v Y).symm, hrepl]

theorem extractSimple_nomatch {P s : List Char} (hP1 : P ≠ []) (h : NoCIStart P s []) :
    extractSimple P s = (none, s) := by
  unfold extractSimple
  rw [findFirst_none hP1 _ (fun _ hs => tryMatchSimple_none hs) h]

theorem extractQuoted_nomatch {P s : List Char} (hP1 : P ≠ []) (h : NoCIStart P s []) :
    extractQuoted P s = (none, s) := by
  unfold extractQuoted
  rw [findFirst_none hP1 _ (fun _ hs => tryMatchQuoted_none hs) h]

theorem stripQuotesAll_clean {v : List Char} (h : ∀ c ∈ v, c ≠ dq ∧ c ≠ sq) :
    stripQuotesAll v = v := by
  unfold stripQuotesAll
  apply List.filter_eq_self.mpr
  intro c hc
  simp [isQuoteChar, (h c hc).1, (h c hc).2]

theorem stripSurround_clean {v : List Char} (h : ∀ c ∈ v, c ≠ dq ∧ c ≠ sq) :
    stripSurround v = v := by
  cases v with
  | nil => rfl
  | cons x xs =>
    have hx : isQuoteChar ((x :: xs).headD ' ') = false := by
      simp [isQuoteChar, (h x (List.mem_cons_self x xs)).1, (h x (List.mem_cons_self x xs)).2]
    unfold stripSurround
    rw [hx]
    simp

theorem dropWhile_all {p : Char → Bool} :
    ∀ {w : List Char}, (∀ c ∈ w, p c = true) → w.dropWhile p = []
  | [], _ => rfl
  | c :: cs, h => by
    rw [List.dropWhile_cons_of_pos (h c (List.mem_cons_self c cs))]
    exact dropWhile_all fun x hx => h x (List.mem_cons_of_mem c hx)

theorem dropWhile_append_all {p : Char → Bool} :
    ∀ {a b : List Char}, (∀ c ∈ a, p c = true) → (a ++ b).dropWhile p = b.dropWhile p
  | [], b, _ => rfl
  | c :: cs, b, h => by
    rw [List.cons_append, List.dropWhile_cons_of_pos (h c (List.mem_cons_self c cs))]
    exact dropWhile_append_all fun x hx => h x (List.mem_cons_of_mem c hx)

theorem trim_eq_self_parts {q : List Char} (h : trim q = q) :
    q.dropWhile jsSpace = q ∧ q.reverse.dropWhile jsSpace = q.reverse := by
  have l1 : (q.dropWhile jsSpace).length ≤ q.length :=
    (List.dropWhile_suffix jsSpace).length_le
  have l2 : ((q.dropWhile jsSpace).reverse.dropWhile jsSpace).length ≤
      (q.dropWhile jsSpace).length := by
    have := (List.dropWhile_suffix (l := (q.dropWhile jsSpace).reverse) jsSpace).length_le
    rwa [List.length_reverse] at this
  have hlen : (trim q).length = q.length := by rw [h]
  unfold trim at hlen
  rw [List.length_reverse] at hlen
  have e1 : q.dropWhile jsSpace = q :=
    (List.dropWhile_suffix jsSpace).eq_of_length (by omega)
  refine ⟨e1, ?_⟩
  rw [e1] at hlen
  exact (List.dropWhile_suffix jsSpace).eq_of_length (by rw [List.length_reverse]; omega)

theorem trim_append_spaces {q w : List Char} (hq : trim q = q)
    (hw : ∀ c ∈ w, jsSpace c = true) : trim (q ++ w) = q := by
  obtain ⟨e1, e2⟩ := trim_eq_self_parts hq
  cases q with
  | nil =>
    rw [List.nil_append]
    unfold trim
    rw [dropWhile_all hw]
    rfl
  | cons x q' =>
    have hx : jsSpace x = false := by
      rcases hxx : jsSpace x with _ | _
      · rfl
      · exfalso
        rw [List.dropWhile_cons_of_pos hxx] at e1
        have := (List.dropWhile_suffix (l := q') jsSpace).length_le
        rw [e1] at this
        simp at this
    unfold trim
    rw [List.cons_append, List.dropWhile_cons_of_neg (by simp [hx]), List.reverse_cons,
      List.reverse_append, List.append_assoc,
      dropWhile_append_all fun c hc => hw c (List.mem_reverse.mp hc)]
    rw [List.reverse_cons] at e2
    rw [e2, ← List.reverse_cons, List.reverse_reverse]

theorem trim_cons_space (s : List Char) : trim (' ' :: s) = trim s := by
  unfold trim
  rw [List.dropWhile_cons_of_pos (by decide)]

theorem noCIStart_spaces {P : List Char} (hP1 : P ≠ [])
    (hP2 : ∀ c ∈ P, jsSpace c = false) :
    ∀ {A : List Char} (R : List Char), (∀ c ∈ A, jsSpace c = true) → NoCIStart P A R
  | [], R, _ => noCIStart_nil P R
  | a :: t, R, hA => by
    rw [noCIStart_cons]
    refine ⟨?_, noCIStart_spaces hP1 hP2 R fun c hc => hA c (List.mem_cons_of_mem a hc)⟩
    rw [List.cons_append]
    exact startsWithCI_space_head _ hP1 hP2 (hA a (List.mem_cons_self a t))

theorem spHead_renderTail (toks : List (List Char × List Char)) : SpHead (renderTail toks) := by
  cases toks with
  | nil => trivial
  | cons pv rest =>
    obtain ⟨P, v⟩ := pv
    show jsSpace ' ' = true
    decide

theorem spHead_append_spaces {w R : List Char} (hw : ∀ c ∈ w, jsSpace c = true)
    (hR : SpHead R) : SpHead (w ++ R) := by
  cases w with
  | nil => exact hR
  | cons c t => exact hw c (List.mem_cons_self c t)

theorem noCIStart_renderTail {P : List Char} (hP1 : P ≠ [])
    (hP2 : ∀ c ∈ P, jsSpace c = false) :
    ∀ {toks : List (List Char × List Char)},
      (∀ pv ∈ toks, alienTok P pv.1 = true ∧ containsCI P pv.2 = false) →
      NoCIStart P (renderTail toks) []
  | [], _ => noCIStart_nil P []
  | (Q, v) :: rest, h => by
    show NoCIStart P (' ' :: ((Q ++ v) ++ renderTail rest)) []
    rw [noCIStart_cons]
    constructor
    · rw [List.cons_append, List.append_nil]
      exact startsWithCI_space_head _ hP1 hP2 (by decide)
    · refine noCIStart_append ?_ ?_
      · rw [List.append_nil]
        exact noCIStart_of_alien hP1 hP2
          (h (Q, v) (List.mem_cons_self _ _)).1 (h (Q, v) (List.mem_cons_self _ _)).2
          (spHead_renderTail rest)
      · exact noCIStart_renderTail hP1 hP2 fun pv hpv => h pv (List.mem_cons_of_mem _ hpv)

theorem noCIStart_full {P : List Char} (hP1 : P ≠ [])
    (hP2 : ∀ c ∈ P, jsSpace c = false) {q w : List Char}
    {toks : List (List Char × List Char)}
    (hq : containsCI P q = false) (hw : ∀ c ∈ w, jsSpace c = true)
    (htoks : ∀ pv ∈ toks, alienTok P pv.1 = true ∧ containsCI P pv.2 = false) :
    NoCIStart P (q ++ (w ++ renderTail toks)) [] := by
  refine noCIStart_append ?_ (noCIStart_append (R := []) ?_ ?_)
  · apply noCIStart_of_contains hP1 hP2 hq
    rw [List.append_nil]
    exact spHead_append_spaces hw (spHead_renderTail toks)
  · exact noCIStart_spaces hP1 hP2 _ hw
  · exact noCIStart_renderTail hP1 hP2 htoks

theorem noCIStart_left_of_hit {P : List Char} (hP1 : P ≠ [])
    (hP2 : ∀ c ∈ P, jsSpace c = false) {q w R : List Char}
    (hq : containsCI P q = false) (hw : ∀ c ∈ w, jsSpace c = true) :
    NoCIStart P (q ++ (w ++ [' '])) R := by
  refine noCIStart_append (noCIStart_of_contains hP1 hP2 hq ?_) ?_
  · have : w ++ [' '] ≠ [] := by simp
    cases hwr : w ++ [' '] with
    | nil => exact absurd hwr this
    | cons c t =>
      show jsSpace c = true
      have hmem : c ∈ w ++ [' '] := by rw [hwr]; exact List.mem_cons_self c t
      rcases List.mem_append.mp hmem with hc | hc
      · exact hw c hc
      · rcases List.mem_singleton.mp hc with rfl
        decide
  · exact noCIStart_spaces hP1 hP2 R (by
      intro c hc
      rcases List.mem_append.mp hc with hc | hc
      · exact hw c hc
      · rcases List.mem_singleton.mp hc with rfl
        decide)

theorem stage_simple_hit {P q w v Y : List Char} (hP1 : P ≠ [])
    (hP2 : ∀ c ∈ P, jsSpace c = false)
    (hq : containsCI P q = false) (hw : ∀ c ∈ w, jsSpace c = true)
    (hv1 : v ≠ []) (hv2 : ∀ c ∈ v, jsSpace c = false) (hY : SpHead Y) :
    extractSimple P (q ++ (w ++ (' ' :: (P ++ (v ++ Y))))) =
      (some (stripQuotesAll v), q ++ (w ++ (' ' :: Y))) := by
  have hA : NoCIStart P (q ++ (w ++ [' '])) (P ++ (v ++ Y)) :=
    noCIStart_left_of_hit hP1 hP2 hq hw
  have h1 := extractSimple_hit hP1 hA hv1 hv2 hY
  have hs1 : (q ++ (w ++ [' '])) ++ (P ++ (v ++ Y)) = q ++ (w ++ (' ' :: (P ++ (v ++ Y)))) := by
    simp
  have hs2 : (q ++ (w ++ [' '])) ++ Y = q ++ (w ++ (' ' :: Y)) := by simp
  rw [hs1, hs2] at h1
  exact h1

theorem stage_quoted_hit {P q w v Y : List Char} (hP1 : P ≠ [])
    (hP2 : ∀ c ∈ P, jsSpace c = false)
    (hq : containsCI P q = false) (hw : ∀ c ∈ w, jsSpace c = true)
    (hv1 : v ≠ []) (hv2 : ∀ c ∈ v, jsSpace c = false) (hY : SpHead Y) :
    extractQuoted P (q ++ (w ++ (' ' :: (P ++ (v ++ Y))))) =
      (some (stripSurround v), q ++ (w ++ (' ' :: Y))) := by
  have hA : NoCIStart P (q ++ (w ++ [' '])) (P ++ (v ++ Y)) :=
    noCIStart_left_of_hit hP1 hP2 hq hw
  have h1 := extractQuoted_hit hP1 hA hv1 hv2 hY
  have hs1 : (q ++ (w ++ [' '])) ++ (P ++ (v ++ Y)) = q ++ (w ++ (' ' :: (P ++ (v ++ Y)))) := by
    simp
  have hs2 : (q ++ (w ++ [' '])) ++ Y = q ++ (w ++ (' ' :: Y)) := by simp
  rw [hs1, hs2] at h1
  exact h1

theorem stage_simple_opt {P q w : List Char} {o : Option (List Char)}
    {k : List (List Char × List Char)} (hP1 : P ≠ [])
    (hP2 : ∀ c ∈ P, jsSpace c = false)
    (hq : containsCI P q = false) (hw : ∀ c ∈ w, jsSpace c = true)
    (ho : ∀ v, o = some v → v ≠ [] ∧ ∀ c ∈ v, jsSpace c = false)
    (hk : ∀ pv ∈ k, alienTok P pv.1 = true ∧ containsCI P pv.2 = false) :
    ∃ w', (∀ c ∈ w', jsSpace c = true) ∧
      extractSimple P (q ++ (w ++ renderTail (optTok P o ++ k))) =
        (o.map stripQuotesAll, q ++ (w' ++ renderTail k)) := by
  cases o with
  | none =>
    refine ⟨w, hw, ?_⟩
    show extractSimple P (q ++ (w ++ renderTail k)) = (none, q ++ (w ++ renderTail k))
    exact extractSimple_nomatch hP1 (noCIStart_full hP1 hP2 hq hw hk)
  | some v =>
    refine ⟨w ++ [' '], ?_, ?_⟩
    · intro c hc
      rcases List.mem_append.mp hc with hc | hc
      · exact hw c hc
      · rcases List.mem_singleton.mp hc with rfl
        decide
    · obtain ⟨hv1, hv2⟩ := ho v rfl
      have h1 := stage_simple_hit (q := q) (w := w) hP1 hP2 hq hw hv1 hv2
        (spHead_renderTail k)
      have hs : renderTail (optTok P (some v) ++ k) = ' ' :: (P ++ (v ++ renderTail k)) := by
        show renderTail ((P, v) :: k) = _
        show ' ' :: ((P ++ v) ++ renderTail k) = _
        simp
      rw [hs]
      rw [h1]
      simp

theorem stage_quoted_opt {P q w : List Char} {o : Option (List Char)}
    {k : List (List Char × List Char)} (hP1 : P ≠ [])
    (hP2 : ∀ c ∈ P, jsSpace c = false)
    (hq : containsCI P q = false) (hw : ∀ c ∈ w, jsSpace c = true)
    (ho : ∀ v, o = some v → v ≠ [] ∧ ∀ c ∈ v, jsSpace c = false)
    (hk : ∀ pv ∈ k, alienTok P pv.1 = true ∧ containsCI P pv.2 = false) :
    ∃ w', (∀ c ∈ w', jsSpace c = true) ∧
      extractQuoted P (q ++ (w ++ renderTail (optTok P o ++ k))) =
        (o.map stripSurround, q ++ (w' ++ renderTail k)) := by
  cases o with
  | none =>
    refine ⟨w, hw, ?_⟩
    show extractQuoted P (q ++ (w ++ renderTail k)) = (none, q ++ (w ++ renderTail k))
    exact extractQuoted_nomatch hP1 (noCIStart_full hP1 hP2 hq hw hk)
  | some v =>
    refine ⟨w ++ [' '], ?_, ?_⟩
    · intro c hc
      rcases List.mem_append.mp hc with hc | hc
      · exact hw c hc
      · rcases List.mem_singleton.mp hc with rfl
        decide
    · obtain ⟨hv1, hv2⟩ := ho v rfl
      have h1 := stage_quoted_hit (q := q) (w := w) hP1 hP2 hq hw hv1 hv2
        (spHead_renderTail k)
      have hs : renderTail (optTok P (some v) ++ k) = ' ' :: (P ++ (v ++ renderTail k)) := by
        show renderTail ((P, v) :: k) = _
        show ' ' :: ((P ++ v) ++ renderTail k) = _
        simp
      rw [hs]
      rw [h1]
      simp

theorem findFirst_some_ex {tm : List Char → Option (List Char × List Char)} :
    ∀ {s : List Char} {r}, findFirst tm s = some r → ∃ s', tm s' = some r
  | [], r, h => ⟨[], h⟩
  | c :: t, r, h => by
    rw [findFirst_cons] at h
    rcases h2 : tm (c :: t) with _ | r2
    · rw [h2] at h
      exact findFirst_some_ex h
    · rw [h2] at h
      exact ⟨c :: t, by rw [h2]; exact h⟩

theorem tryMatchSimple_some_head {P s m v : List Char} (hP1 : P ≠ [])
    (hP2 : ∀ c ∈ P, jsSpace c = false) (h : tryMatchSimple P s = some (m, v)) :
    ∃ c cs, m = c :: cs ∧ jsSpace c = false := by
  unfold tryMatchSimple at h
  rcases hsw : startsWithCI P s with _ | _
  · rw [hsw] at h; cases h
  · rw [hsw] at h
    simp only [if_true] at h
    split at h
    · cases h
    · cases P with
      | nil => exact absurd rfl hP1
      | cons p ps =>
        cases s with
        | nil => exact Bool.noConfusion hsw
        | cons c cs' =>
          have hpc : lowEq p c = true := by
            have h' : (lowEq p c && startsWithBy lowEq ps cs') = true := hsw
            exact (Bool.and_eq_true_iff.mp h').1
          have hcns : jsSpace c = false := by
            rcases hcs : jsSpace c with _ | _
            · rfl
            · rw [lowEq_space hcs (hP2 p (List.mem_cons_self p ps))] at hpc
              cases hpc
          have hm := congrArg Prod.fst (Option.some.inj h)
          rw [List.length_cons, List.take_succ_cons, List.cons_append] at hm
          exact ⟨c, _, hm.symm, hcns⟩

theorem tryMatchQuoted_some_head {P s m v : List Char} (hP1 : P ≠ [])
    (hP2 : ∀ c ∈ P, jsSpace c = false) (h : tryMatchQuoted P s = some (m, v)) :
    ∃ c cs, m = c :: cs ∧ jsSpace c = false := by
  unfold tryMatchQuoted at h
  rcases hsw : startsWithCI P s with _ | _
  · rw [hsw] at h; cases h
  · rw [hsw] at h
    simp only [if_true] at h
    have hm : ∃ X, m = s.take P.length ++ X := by
      split at h
      · exact ⟨_, (congrArg Prod.fst (Option.some.inj h)).symm⟩
      · split at h
        · cases h
        · split at h
          · split at h
            · injection h with h'
              injection h' with h1 h2
              exact ⟨_, h1.symm⟩
            · cases h
          · split at h
            · split at h
              · injection h with h'
                injection h' with h1 h2
                exact ⟨_, h1.symm⟩
              · cases h
            · cases h
    obtain ⟨X, hX⟩ := hm
    cases P with
    | nil => exact absurd rfl hP1
    | cons p ps =>
      cases s with
      | nil => exact Bool.noConfusion hsw
      | cons c cs' =>
        have hpc : lowEq p c = true := by
          have h' : (lowEq p c && startsWithBy lowEq ps cs') = true := hsw
          exact (Bool.and_eq_true_iff.mp h').1
        have hcns : jsSpace c = false := by
          rcases hcs : jsSpace c with _ | _
          · rfl
          · rw [lowEq_space hcs (hP2 p (List.mem_cons_self p ps))] at hpc
            cases hpc
        rw [List.length_cons, List.take_succ_cons, List.cons_append] at hX
        exact ⟨c, _, hX, hcns⟩

theorem replaceFirst_cons_space {m : List Char} {c : Char} {cs s : List Char}
    (hm : m = c :: cs) (hcns : jsSpace c = false) :
    replaceFirst m (' ' :: s) = ' ' :: replaceFirst m s := by
  subst hm
  rw [replaceFirst_cons]
  have hcc : (c == ' ') = false := by
    rcases h : c == ' ' with _ | _
    · rfl
    · exfalso
      have : c = ' ' := by simpa using h
      subst this
      exact absurd hcns (by decide)
  have hsw : startsWithCS (c :: cs) (' ' :: s) = false := by
    show startsWithBy (fun a b => a == b) (c :: cs) (' ' :: s) = false
    rw [startsWithBy_cons, hcc]
    rfl
  rw [hsw]
  simp

theorem extractSimple_cons_space {P : List Char} (hP1 : P ≠ [])
    (hP2 : ∀ c ∈ P, jsSpace c = false) (s : List Char) :
    extractSimple P (' ' :: s) = ((extractSimple P s).1, ' ' :: (extractSimple P s).2) := by
  have hff : findFirst (tryMatchSimple P) (' ' :: s) = findFirst (tryMatchSimple P) s := by
    rw [findFirst_cons, tryMatchSimple_none (startsWithCI_space_head s hP1 hP2 (by decide))]
  unfold extractSimple
  rw [hff]
  cases hf : findFirst (tryMatchSimple P) s with
  | none => rfl
  | some r =>
    obtain ⟨m, v⟩ := r
    obtain ⟨s', hs'⟩ := findFirst_some_ex hf
    obtain ⟨c, cs, hm, hcns⟩ := tryMatchSimple_some_head hP1 hP2 hs'
    dsimp only
    rw [replaceFirst_cons_space hm hcns]

theorem extractQuoted_cons_space {P : List Char} (hP1 : P ≠ [])
    (hP2 : ∀ c ∈ P, jsSpace c = false) (s : List Char) :
    extractQuoted P (' ' :: s) = ((extractQuoted P s).1, ' ' :: (extractQuoted P s).2) := by
  have hff : findFirst (tryMatchQuoted P) (' ' :: s) = findFirst (tryMatchQuoted P) s := by
    rw [findFirst_cons, tryMatchQuoted_none (startsWithCI_space_head s hP1 hP2 (by decide))]
  unfold extractQuoted
  rw [hff]
  cases hf : findFirst (tryMatchQuoted P) s with
  | none => rfl
  | some r =>
    obtain ⟨m, v⟩ := r
    obtain ⟨s', hs'⟩ := findFirst_some_ex hf
    obtain ⟨c, cs, hm, hcns⟩ := tryMatchQuoted_some_head hP1 hP2 hs'
    dsimp only
    rw [replaceFirst_cons_space hm hcns]

theorem parse_cons_space (s : List Char) :
    parseSearchQuery (' ' :: s) = parseSearchQuery s := by
  simp only [parseSearchQuery]
  rw [extractSimple_cons_space (by decide) (by decide) s]
  dsimp only
  rw [extractSimple_cons_space (by decide) (by decide)]
  dsimp only
  rw [extractQuoted_cons_space (by decide) (by decide)]
  dsimp only
  rw [extractQuoted_cons_space (by decide) (by decide)]
  dsimp only
  rw [trim_cons_space]

theorem mem_optTok {P : List Char} {o : Option (List Char)} {pv : List Char × List Char}
    (h : pv ∈ optTok P o) : ∃ v, o = some v ∧ pv = (P, v) := by
  cases o with
  | none => exact absurd h (List.not_mem_nil pv)
  | some v =>
    refine ⟨v, rfl, ?_⟩
    simpa [optTok] using h

theorem opt_map_stripQuotes {o : Option (List Char)} (h : ∀ v, o = some v → safeVal v) :
    o.map stripQuotesAll = o := by
  cases o with
  | none => rfl
  | some v =>
    have hs := h v rfl
    simp [stripQuotesAll_clean fun c hc => ⟨(hs.2.1 c hc).2.1, (hs.2.1 c hc).2.2⟩]

theorem opt_map_stripSurround {o : Option (List Char)} (h : ∀ v, o = some v → safeVal v) :
    o.map stripSurround = o := by
  cases o with
  | none => rfl
  | some v =>
    have hs := h v rfl
    simp [stripSurround_clean fun c hc => ⟨(hs.2.1 c hc).2.1, (hs.2.1 c hc).2.2⟩]

theorem safeVal_word {v : List Char} (h : safeVal v) :
    v ≠ [] ∧ ∀ c ∈ v, jsSpace c = false :=
  ⟨h.1, fun c hc => (h.2.1 c hc).1⟩

/-- Parsing a string of the shape
`query ++ " date:vd time:vt title:vti url:vu"` (each token present
exactly when its filter is) recovers each component exactly, provided
the query is trimmed and prefix-free and the values are safe single
words. -/
theorem parse_render_gen {q : List Char} {d t i u : Option (List Char)}
    (hqt : trim q = q)
    (hq1 : containsCI datePat q = false) (hq2 : containsCI timePat q = false)
    (hq3 : containsCI titlePat q = false) (hq4 : containsCI urlPat q = false)
    (hd : ∀ v, d = some v → safeVal v) (ht : ∀ v, t = some v → safeVal v)
    (hti : ∀ v, i = some v → safeVal v) (hu : ∀ v, u = some v → safeVal v) :
    parseSearchQuery (q ++ renderTail (optTok datePat d ++ optTok timePat t ++
      optTok titlePat i ++ optTok urlPat u)) =
      { query := q, date := d, time := t, title := i, url := u } := by
  have htoks1 : ∀ pv ∈ optTok timePat t ++ (optTok titlePat i ++ optTok urlPat u),
      alienTok datePat pv.1 = true ∧ containsCI datePat pv.2 = false := by
    intro pv hpv
    rcases List.mem_append.mp hpv with hpv | hpv
    · obtain ⟨v, hv, rfl⟩ := mem_optTok hpv
      exact ⟨(by decide : alienTok datePat timePat = true), (ht v hv).2.2.1⟩
    · rcases List.mem_append.mp hpv with hpv | hpv
      · obtain ⟨v, hv, rfl⟩ := mem_optTok hpv
        exact ⟨(by decide : alienTok datePat titlePat = true), (hti v hv).2.2.1⟩
      · obtain ⟨v, hv, rfl⟩ := mem_optTok hpv
        exact ⟨(by decide : alienTok datePat urlPat = true), (hu v hv).2.2.1⟩
  have htoks2 : ∀ pv ∈ optTok titlePat i ++ optTok urlPat u,
      alienTok timePat pv.1 = true ∧ containsCI timePat pv.2 = false := by
    intro pv hpv
    rcases List.mem_append.mp hpv with hpv | hpv
    · obtain ⟨v, hv, rfl⟩ := mem_optTok hpv
      exact ⟨(by decide : alienTok timePat titlePat = true), (hti v hv).2.2.2.1⟩
    · obtain ⟨v, hv, rfl⟩ := mem_optTok hpv
      exact ⟨(by decide : alienTok timePat urlPat = true), (hu v hv).2.2.2.1⟩
  have htoks3 : ∀ pv ∈ optTok urlPat u,
      alienTok titlePat pv.1 = true ∧ containsCI titlePat pv.2 = false := by
    intro pv hpv
    obtain ⟨v, hv, rfl⟩ := mem_optTok hpv
    exact ⟨(by decide : alienTok titlePat urlPat = true), (hu v hv).2.2.2.2.1⟩
  have htoks4 : ∀ pv ∈ ([] : List (List Char × List Char)),
      alienTok urlPat pv.1 = true ∧ containsCI urlPat pv.2 = false :=
    fun pv hpv => absurd hpv (List.not_mem_nil pv)
  obtain ⟨w1, hw1, e1⟩ := stage_simple_opt (P := datePat) (q := q) (w := ([] : List Char))
    (o := d) (k := optTok timePat t ++ (optTok titlePat i ++ optTok urlPat u))
    (by decide) (by decide) hq1 (fun c hc => absurd hc (List.not_mem_nil c))
    (fun v hv => safeVal_word (hd v hv)) htoks1
  simp only [List.nil_append] at e1
  obtain ⟨w2, hw2, e2⟩ := stage_simple_opt (P := timePat) (q := q) (w := w1)
    (o := t) (k := optTok titlePat i ++ optTok urlPat u)
    (by decide) (by decide) hq2 hw1 (fun v hv => safeVal_word (ht v hv)) htoks2
  obtain ⟨w3, hw3, e3⟩ := stage_quoted_opt (P := titlePat) (q := q) (w := w2)
    (o := i) (k := optTok urlPat u)
    (by decide) (by decide) hq3 hw2 (fun v hv => safeVal_word (hti v hv)) htoks3
  obtain ⟨w4, hw4, e4⟩ := stage_quoted_opt (P := urlPat) (q := q) (w := w3)
    (o := u) (k := ([] : List (List Char × List Char)))
    (by decide) (by decide) hq4 hw3 (fun v hv => safeVal_word (hu v hv)) htoks4
  simp only [List.append_nil] at e4
  simp only [parseSearchQuery, List.append_assoc]
  rw [e1]
  dsimp only
  rw [e2]
  dsimp only
  rw [e3]
  dsimp only
  rw [e4]
  dsimp only
  rw [show renderTail [] = ([] : List Char) from rfl, List.append_nil,
    trim_append_spaces hqt hw4, opt_map_stripQuotes hd, opt_map_stripQuotes ht,
    opt_map_stripSurround hti, opt_map_stripSurround hu]

theorem renderTail_append (xs ys : List (List Char × List Char)) :
    renderTail (xs ++ ys) = renderTail xs ++ renderTail ys := by
  induction xs with
  | nil => rfl
  | cons pv rest ih =>
    obtain ⟨P, v⟩ := pv
    show ' ' :: ((P ++ v) ++ renderTail (rest ++ ys)) = (' ' :: ((P ++ v) ++ renderTail rest)) ++ renderTail ys
    rw [ih]
    simp

theorem quoteIfNeeded_eq {v : List Char} (h : ∀ c ∈ v, jsSpace c = false) :
    quoteIfNeeded v = v := by
  unfold quoteIfNeeded
  have : v.any jsSpace = false := by
    rcases ha : v.any jsSpace with _ | _
    · rfl
    · obtain ⟨c, hc, hcs⟩ := List.any_eq_true.mp ha
      rw [h c hc] at hcs
      cases hcs
  rw [this]
  simp

theorem catTok_shape {s q : List Char} {toks : List (List Char × List Char)}
    {P : List Char} {o : Option (List Char)}
    (ho : ∀ v, o = some v → ∀ c ∈ v, jsSpace c = false)
    (htoks : ∀ pv ∈ toks, pv.1 ≠ ([] : List Char))
    (h : (q ≠ [] ∧ s = q ++ renderTail toks) ∨
         (q = [] ∧ ((toks = [] ∧ s = []) ∨ ' ' :: s = renderTail toks))) :
    (q ≠ [] ∧ catTok s P o = q ++ renderTail (toks ++ optTok P o)) ∨
    (q = [] ∧ ((toks ++ optTok P o = [] ∧ catTok s P o = []) ∨
      ' ' :: catTok s P o = renderTail (toks ++ optTok P o))) := by
  cases o with
  | none =>
    simp only [optTok, List.append_nil]
    exact h
  | some v =>
    have hv : quoteIfNeeded v = v := quoteIfNeeded_eq (ho v rfl)
    rcases h with ⟨hq, rfl⟩ | ⟨hq, h2⟩
    · left
      refine ⟨hq, ?_⟩
      have hse : (q ++ renderTail toks).isEmpty = false := by
        cases hqq : q with
        | nil => exact absurd hqq hq
        | cons a b => rfl
      have hcat : catTok (q ++ renderTail toks) P (some v) =
          (q ++ renderTail toks) ++ ' ' :: (P ++ v) := by
        show (if (q ++ renderTail toks).isEmpty then P ++ quoteIfNeeded v
          else (q ++ renderTail toks) ++ ' ' :: (P ++ quoteIfNeeded v)) = _
        rw [hse, hv]
        simp
      rw [hcat, renderTail_append]
      show (q ++ renderTail toks) ++ ' ' :: (P ++ v) =
        q ++ (renderTail toks ++ (' ' :: ((P ++ v) ++ renderTail [])))
      simp [renderTail]
    · right
      refine ⟨hq, ?_⟩
      rcases h2 with ⟨rfl, rfl⟩ | h3
      · right
        show ' ' :: (if ([] : List Char).isEmpty then P ++ quoteIfNeeded v
          else [] ++ ' ' :: (P ++ quoteIfNeeded v)) = _
        rw [hv]
        show ' ' :: (P ++ v) = ' ' :: ((P ++ v) ++ renderTail [])
        simp [renderTail]
      · right
        cases htk : toks with
        | nil =>
          rw [htk] at h3
          exact absurd h3 (List.cons_ne_nil ' ' s)
        | cons pv rest =>
          obtain ⟨Q, v'⟩ := pv
          rw [htk] at h3
          have h3' : ' ' :: s = ' ' :: ((Q ++ v') ++ renderTail rest) := h3
          have hs : s = (Q ++ v') ++ renderTail rest := by
            injection h3'
          have hsne : s.isEmpty = false := by
            rw [hs]
            have hQ : Q ≠ [] := htoks (Q, v') (htk ▸ List.mem_cons_self _ _)
            cases hQQ : Q with
            | nil => exact absurd hQQ hQ
            | cons a b => rfl
          have hcat : catTok s P (some v) = s ++ ' ' :: (P ++ v) := by
            show (if s.isEmpty then P ++ quoteIfNeeded v
              else s ++ ' ' :: (P ++ quoteIfNeeded v)) = _
            rw [hsne, hv]
            simp
          rw [hcat, renderTail_append]
          show ' ' :: (s ++ ' ' :: (P ++ v)) =
            renderTail ((Q, v') :: rest) ++ (' ' :: ((P ++ v) ++ renderTail []))
          rw [← h3]
          simp [renderTail]

theorem optTok_fst_ne {P : List Char} {o : Option (List Char)} (hP : P ≠ []) :
    ∀ pv ∈ optTok P o, pv.1 ≠ ([] : List Char) := by
  intro pv hpv
  obtain ⟨v, _, rfl⟩ := mem_optTok hpv
  exact hP

theorem toCanonical_shape (f : SearchFilters)
    (hd : ∀ v, f.date = some v → ∀ c ∈ v, jsSpace c = false)
    (ht : ∀ v, f.time = some v → ∀ c ∈ v, jsSpace c = false)
    (hti : ∀ v, f.title = some v → ∀ c ∈ v, jsSpace c = false)
    (hu : ∀ v, f.url = some v → ∀ c ∈ v, jsSpace c = false) :
    (f.query ≠ [] ∧ toCanonicalString f = f.query ++ renderTail
        (optTok datePat f.date ++ optTok timePat f.time ++ optTok titlePat f.title ++
          optTok urlPat f.url)) ∨
    (f.query = [] ∧ ((optTok datePat f.date ++ optTok timePat f.time ++
          optTok titlePat f.title ++ optTok urlPat f.url = [] ∧ toCanonicalString f = []) ∨
      ' ' :: toCanonicalString f = renderTail (optTok datePat f.date ++ optTok timePat f.time ++
        optTok titlePat f.title ++ optTok urlPat f.url))) := by
  have h0 : (f.query ≠ [] ∧ f.query = f.query ++ renderTail []) ∨
      (f.query = [] ∧ ((([] : List (List Char × List Char)) = [] ∧ f.query = []) ∨
        ' ' :: f.query = renderTail [])) := by
    by_cases hq : f.query = []
    · exact Or.inr ⟨hq, Or.inl ⟨rfl, hq⟩⟩
    · exact Or.inl ⟨hq, by simp [renderTail]⟩
  have s1 := catTok_shape (P := datePat) (o := f.date) hd
    (fun pv hpv => absurd hpv (List.not_mem_nil pv)) h0
  simp only [List.nil_append] at s1
  have s2 := catTok_shape (P := timePat) (o := f.time) ht
    (optTok_fst_ne (by decide)) s1
  have s3 := catTok_shape (P := titlePat) (o := f.title) hti
    (List.forall_mem_append.mpr ⟨optTok_fst_ne (by decide), optTok_fst_ne (by decide)⟩) s2
  have s4 := catTok_shape (P := urlPat) (o := f.url) hu
    (List.forall_mem_append.mpr ⟨List.forall_mem_append.mpr
      ⟨optTok_fst_ne (by decide), optTok_fst_ne (by decide)⟩, optTok_fst_ne (by decide)⟩) s3
  exact s4

/-- C3 counterexample: the round-trip `parse (toCanonicalString f) = f`
fails for a grammar-producible filter set whose title value contains an
embedded space — the parser's bare-token alternative fires before the
quoted one, so the quoted value is split at the space. -/
theorem parse_toCanonical_not_id :
    parseSearchQuery (toCanonicalString
      { query := [], date := none, time := none,
        title := some (String.toList "hello world"), url := none }) ≠
      { query := [], date := none, time := none,
        title := some (String.toList "hello world"), url := none } := by decide

/-- C3 (amended): the round-trip `parse (toCanonicalString f) = f` holds
for every StructuredFilters value whose free text is trimmed and free of
filter-prefix occurrences, and whose filter values are nonempty single
words without whitespace or quote characters and without embedded filter
prefixes. -/
theorem parse_toCanonical_roundtrip (f : SearchFilters)
    (hqt : trim f.query = f.query)
    (hq1 : containsCI datePat f.query = false) (hq2 : containsCI timePat f.query = false)
    (hq3 : containsCI titlePat f.query = false) (hq4 : containsCI urlPat f.query = false)
    (hd : ∀ v, f.date = some v → safeVal v) (ht : ∀ v, f.time = some v → safeVal v)
    (hti : ∀ v, f.title = some v → safeVal v) (hu : ∀ v, f.url = some v → safeVal v) :
    parseSearchQuery (toCanonicalString f) = f := by
  obtain ⟨q, d, t, ti, u⟩ := f
  rcases toCanonical_shape ⟨q, d, t, ti, u⟩
      (fun v hv c hc => ((hd v hv).2.1 c hc).1) (fun v hv c hc => ((ht v hv).2.1 c hc).1)
      (fun v hv c hc => ((hti v hv).2.1 c hc).1) (fun v hv c hc => ((hu v hv).2.1 c hc).1)
    with ⟨hq, heq⟩ | ⟨hq, hrest⟩
  · rw [heq]
    exact parse_render_gen hqt hq1 hq2 hq3 hq4 hd ht hti hu
  · rcases hrest with ⟨htk, hnil⟩ | hsp
    · have hd0 : d = none := by
        cases hdd : d with
        | none => rfl
        | some v => rw [hdd] at htk; simp [optTok] at htk
      have ht0 : t = none := by
        cases htt : t with
        | none => rfl
        | some v => rw [htt] at htk; simp [optTok] at htk
      have hti0 : ti = none := by
        cases htit : ti with
        | none => rfl
        | some v => rw [htit] at htk; simp [optTok] at htk
      have hu0 : u = none := by
        cases huu : u with
        | none => rfl
        | some v => rw [huu] at htk; simp [optTok] at htk
      have hq0 : q = [] := hq
      subst hd0 ht0 hti0 hu0 hq0
      rw [hnil]
      decide
    · have hq0 : q = [] := hq
      subst hq0
      rw [← parse_cons_space, hsp]
      have hmain := parse_render_gen (q := ([] : List Char)) (d := d) (t := t) (i := ti)
        (u := u) (by decide) (by decide) (by decide) (by decide) (by decide) hd ht hti hu
      simp only [List.nil_append] at hmain
      exact hmain

/-- Witness for C3 (amended) at a concrete filter set with all fields
present. -/
theorem parse_toCanonical_roundtrip_witness :
    trim (String.toList "meeting notes") = String.toList "meeting notes" ∧
    parseSearchQuery (toCanonicalString
      { query := String.toList "meeting notes", date := some (String.toList "2024-02-10"),
        time := some (String.toList "15:00-17:00"), title := some (String.toList "final"),
        url := some (String.toList "github.com") }) =
      { query := String.toList "meeting notes", date := some (String.toList "2024-02-10"),
        time := some (String.toList "15:00-17:00"), title := some (String.toList "final"),
        url := some (String.toList "github.com") } :=
  ⟨by decide,
    parse_toCanonical_roundtrip _ (by decide) (by decide) (by decide) (by decide) (by decide)
      (fun v hv => by cases hv; decide) (fun v hv => by cases hv; decide)
      (fun v hv => by cases hv; decide) (fun v hv => by cases hv; decide)⟩

theorem containsCI_false_of_noCIStart {P : List Char} :
    ∀ {s : List Char}, NoCIStart P s [] → P ≠ [] → containsCI P s = false
  | [], _, hP => by
    rw [containsCI_nil]
    exact startsWithBy_nil_right lowEq hP
  | c :: t, h, hP => by
    rw [containsCI_cons, Bool.or_eq_false_iff]
    constructor
    · have := h.1
      rwa [List.append_nil] at this
    · exact containsCI_false_of_noCIStart h.2 hP

theorem noCIStart_cons_space {P X : List Char} (hP1 : P ≠ [])
    (hP2 : ∀ c ∈ P, jsSpace c = false) (hX : NoCIStart P X []) :
    NoCIStart P (' ' :: X) [] := by
  rw [noCIStart_cons]
  refine ⟨?_, hX⟩
  rw [List.append_nil]
  exact startsWithCI_space_head X hP1 hP2 (by decide)

theorem dropWhile_eq_self_of_head {p : Char → Bool} {s : List Char}
    (h : s = [] ∨ p (s.headD ' ') = false) : s.dropWhile p = s := by
  cases s with
  | nil => rfl
  | cons c t =>
    rcases h with h | h
    · cases h
    · exact List.dropWhile_cons_of_neg (by simp_all)

theorem trim_eq_self_of_ends {s : List Char} (h1 : s.dropWhile jsSpace = s)
    (h2 : s.reverse.dropWhile jsSpace = s.reverse) : trim s = s := by
  unfold trim
  rw [h1, h2, List.reverse_reverse]

theorem trim_all_nonspace {s : List Char} (h : ∀ c ∈ s, jsSpace c = false) : trim s = s := by
  apply trim_eq_self_of_ends
  · apply dropWhile_eq_self_of_head
    cases s with
    | nil => exact Or.inl rfl
    | cons c t => exact Or.inr (h c (List.mem_cons_self c t))
  · apply dropWhile_eq_self_of_head
    cases hs : s.reverse with
    | nil => exact Or.inl rfl
    | cons c t =>
      refine Or.inr (h c ?_)
      have : c ∈ s.reverse := by rw [hs]; exact List.mem_cons_self c t
      exact List.mem_reverse.mp this

/-- The word-level facts a cleanWord supplies. -/
theorem cleanWord_parts {v : List Char} (h : cleanWord v) :
    v ≠ [] ∧ (∀ c ∈ v, jsSpace c = false) ∧ containsCI datePat v = false ∧
    containsCI timePat v = false ∧ containsCI titlePat v = false ∧
    containsCI urlPat v = false := by
  have hs := cleanWord_safeVal h
  exact ⟨h.1, fun c hc => (h.2 c hc).1, hs.2.2.1, hs.2.2.2.1, hs.2.2.2.2.1, hs.2.2.2.2.2⟩

/-- Parsing `date:` ++ value ++ rest, for a clean single-word value and
a rest that starts with whitespace (or is empty) and contains no other
filter prefix: the date filter captures exactly the value and the
trimmed rest becomes the free text. -/
theorem parse_date_tok {v R : List Char} (hv : cleanWord v) (hR : SpHead R)
    (hRt : containsCI timePat R = false) (hRti : containsCI titlePat R = false)
    (hRu : containsCI urlPat R = false) :
    parseSearchQuery (datePat ++ (v ++ R)) =
      { query := trim R, date := some v, time := none, title := none, url := none } := by
  obtain ⟨hv1, hv2, _, _, _, _⟩ := cleanWord_parts hv
  have e1 := extractSimple_hit (A := ([] : List Char)) (Y := R) (by decide)
    (noCIStart_nil datePat _) hv1 hv2 hR
  simp only [List.nil_append] at e1
  have e2 := extractSimple_nomatch (P := timePat) (by decide)
    (noCIStart_of_contains (by decide) (by decide) hRt trivial)
  have e3 := extractQuoted_nomatch (P := titlePat) (by decide)
    (noCIStart_of_contains (by decide) (by decide) hRti trivial)
  have e4 := extractQuoted_nomatch (P := urlPat) (by decide)
    (noCIStart_of_contains (by decide) (by decide) hRu trivial)
  simp only [parseSearchQuery]
  rw [e1]
  dsimp only
  rw [e2]
  dsimp only
  rw [e3]
  dsimp only
  rw [e4]
  rw [stripQuotesAll_clean fun c hc => ⟨(hv.2 c hc).2.1, (hv.2 c hc).2.2.1⟩]

/-- Parsing `time:` ++ value ++ rest, analogously. -/
theorem parse_time_tok {v R : List Char} (hv : cleanWord v) (hR : SpHead R)
    (hRd : containsCI datePat R = false) (hRti : containsCI titlePat R = false)
    (hRu : containsCI urlPat R = false) :
    parseSearchQuery (timePat ++ (v ++ R)) =
      { query := trim R, date := none, time := some v, title := none, url := none } := by
  obtain ⟨hv1, hv2, hcd, _, _, _⟩ := cleanWord_parts hv
  have hn1 : NoCIStart datePat (timePat ++ (v ++ R)) [] := by
    have := noCIStart_append (P := datePat) (A := timePat ++ v) (B := R) (R := [])
      (by rw [List.append_nil]
          exact noCIStart_of_alien (by decide) (by decide) (by decide) hcd hR)
      (noCIStart_of_contains (by decide) (by decide) hRd trivial)
    rwa [List.append_assoc] at this
  have e1 := extractSimple_nomatch (P := datePat) (by decide) hn1
  have e2 := extractSimple_hit (A := ([] : List Char)) (Y := R) (by decide)
    (noCIStart_nil timePat _) hv1 hv2 hR
  simp only [List.nil_append] at e2
  have e3 := extractQuoted_nomatch (P := titlePat) (by decide)
    (noCIStart_of_contains (by decide) (by decide) hRti trivial)
  have e4 := extractQuoted_nomatch (P := urlPat) (by decide)
    (noCIStart_of_contains (by decide) (by decide) hRu trivial)
  simp only [parseSearchQuery]
  rw [e1]
  dsimp only
  rw [e2]
  dsimp only
  rw [e3]
  dsimp only
  rw [e4]
  rw [stripQuotesAll_clean fun c hc => ⟨(hv.2 c hc).2.1, (hv.2 c hc).2.2.1⟩]

/-- Parsing `title:` ++ value ++ rest, analogously. -/
theorem parse_title_tok {v R : List Char} (hv : cleanWord v) (hR : SpHead R)
    (hRd : containsCI datePat R = false) (hRt : containsCI timePat R = false)
    (hRu : containsCI urlPat R = false) :
    parseSearchQuery (titlePat ++ (v ++ R)) =
      { query := trim R, date := none, time := none, title := some v, url := none } := by
  obtain ⟨hv1, hv2, hcd, hct, _, _⟩ := cleanWord_parts hv
  have hn1 : NoCIStart datePat (titlePat ++ (v ++ R)) [] := by
    have := noCIStart_append (P := datePat) (A := titlePat ++ v) (B := R) (R := [])
      (by rw [List.append_nil]
          exact noCIStart_of_alien (by decide) (by decide) (by decide) hcd hR)
      (noCIStart_of_contains (by decide) (by decide) hRd trivial)
    rwa [List.append_assoc] at this
  have hn2 : NoCIStart timePat (titlePat ++ (v ++ R)) [] := by
    have := noCIStart_append (P := timePat) (A := titlePat ++ v) (B := R) (R := [])
      (by rw [List.append_nil]
          exact noCIStart_of_alien (by decide) (by decide) (by decide) hct hR)
      (noCIStart_of_contains (by decide) (by decide) hRt trivial)
    rwa [List.append_assoc] at this
  have e1 := extractSimple_nomatch (P := datePat) (by decide) hn1
  have e2 := extractSimple_nomatch (P := timePat) (by decide) hn2
  have e3 := extractQuoted_hit (A := ([] : List Char)) (Y := R) (by decide)
    (noCIStart_nil titlePat _) hv1 hv2 hR
  simp only [List.nil_append] at e3
  have e4 := extractQuoted_nomatch (P := urlPat) (by decide)
    (noCIStart_of_contains (by decide) (by decide) hRu trivial)
  simp only [parseSearchQuery]
  rw [e1]
  dsimp only
  rw [e2]
  dsimp only
  rw [e3]
  dsimp only
  rw [e4]
  rw [stripSurround_clean fun c hc => ⟨(hv.2 c hc).2.1, (hv.2 c hc).2.2.1⟩]

/-- Parsing `url:` ++ value ++ rest, analogously. -/
theorem parse_url_tok {v R : List Char} (hv : cleanWord v) (hR : SpHead R)
    (hRd : containsCI datePat R = false) (hRt : containsCI timePat R = false)
    (hRti : containsCI titlePat R = false) :
    parseSearchQuery (urlPat ++ (v ++ R)) =
      { query := trim R, date := none, time := none, title := none, url := some v } := by
  obtain ⟨hv1, hv2, hcd, hct, hcti, _⟩ := cleanWord_parts hv
  have hn1 : NoCIStart datePat (urlPat ++ (v ++ R)) [] := by
    have := noCIStart_append (P := datePat) (A := urlPat ++ v) (B := R) (R := [])
      (by rw [List.append_nil]
          exact noCIStart_of_alien (by decide) (by decide) (by decide) hcd hR)
      (noCIStart_of_contains (by decide) (by decide) hRd trivial)
    rwa [List.append_assoc] at this
  have hn2 : NoCIStart timePat (urlPat ++ (v ++ R)) [] := by
    have := noCIStart_append (P := timePat) (A := urlPat ++ v) (B := R) (R := [])
      (by rw [List.append_nil]
          exact noCIStart_of_alien (by decide) (by decide) (by decide) hct hR)
      (noCIStart_of_contains (by decide) (by decide) hRt trivial)
    rwa [List.append_assoc] at this
  have hn3 : NoCIStart titlePat (urlPat ++ (v ++ R)) [] := by
    have := noCIStart_append (P := titlePat) (A := urlPat ++ v) (B := R) (R := [])
      (by rw [List.append_nil]
          exact noCIStart_of_alien (by decide) (by decide) (by decide) hcti hR)
      (noCIStart_of_contains (by decide) (by decide) hRti trivial)
    rwa [List.append_assoc] at this
  have e1 := extractSimple_nomatch (P := datePat) (by decide) hn1
  have e2 := extractSimple_nomatch (P := timePat) (by decide) hn2
  have e3 := extractQuoted_nomatch (P := titlePat) (by decide) hn3
  have e4 := extractQuoted_hit (A := ([] : List Char)) (Y := R) (by decide)
    (noCIStart_nil urlPat _) hv1 hv2 hR
  simp only [List.nil_append] at e4
  simp only [parseSearchQuery]
  rw [e1]
  dsimp only
  rw [e2]
  dsimp only
  rw [e3]
  dsimp only
  rw [e4]
  rw [stripSurround_clean fun c hc => ⟨(hv.2 c hc).2.1, (hv.2 c hc).2.2.1⟩]

theorem contains_space_tok {P K w : List Char} (hP1 : P ≠ [])
    (hP2 : ∀ c ∈ P, jsSpace c = false) (hK : alienTok P K = true)
    (hw : containsCI P w = false) :
    containsCI P (' ' :: (K ++ w)) = false :=
  containsCI_false_of_noCIStart
    (noCIStart_cons_space hP1 hP2 (noCIStart_of_alien hP1 hP2 hK hw trivial)) hP1

/-- C2 counterexample: with two date: tokens, the parser honors the
first occurrence, not the last, and leaves the second occurrence in the
residual free text instead of stripping it. -/
theorem parse_duplicate_first_not_last :
    (parseSearchQuery (String.toList "date:a date:b")).date = some (String.toList "a") ∧
    (parseSearchQuery (String.toList "date:a date:b")).query = String.toList "date:b" ∧
    some (String.toList "a") ≠ some (String.toList "b") := by decide

/-- C2 (amended): when the same filter prefix appears twice, the value
of the first occurrence is honored and only that occurrence is stripped;
the later occurrence survives verbatim in the residual free-text query.
Shown for a simple-pattern prefix (date:) and an
alternation-pattern prefix (title:). -/
theorem parse_duplicate_first_wins (v w : List Char) (hv : cleanWord v) (hw : cleanWord w) :
    parseSearchQuery (datePat ++ (v ++ (' ' :: (datePat ++ w)))) =
      { query := datePat ++ w, date := some v, time := none, title := none, url := none } ∧
    parseSearchQuery (titlePat ++ (v ++ (' ' :: (titlePat ++ w)))) =
      { query := titlePat ++ w, date := none, time := none, title := some v, url := none } := by
  obtain ⟨_, _, hwd, hwt, hwti, hwu⟩ := cleanWord_parts hw
  have htrim : ∀ K : List Char, (∀ c ∈ K, jsSpace c = false) →
      trim (' ' :: (K ++ w)) = K ++ w := by
    intro K hK
    rw [trim_cons_space]
    apply trim_all_nonspace
    intro c hc
    rcases List.mem_append.mp hc with hc | hc
    · exact hK c hc
    · exact (hw.2 c hc).1
  constructor
  · have h := parse_date_tok (R := ' ' :: (datePat ++ w)) hv rfl
      (contains_space_tok (by decide) (by decide) (by decide) hwt)
      (contains_space_tok (by decide) (by decide) (by decide) hwti)
      (contains_space_tok (by decide) (by decide) (by decide) hwu)
    rw [htrim datePat (by decide)] at h
    exact h
  · have h := parse_title_tok (R := ' ' :: (titlePat ++ w)) hv rfl
      (contains_space_tok (by decide) (by decide) (by decide) hwd)
      (contains_space_tok (by decide) (by decide) (by decide) hwt)
      (contains_space_tok (by decide) (by decide) (by decide) hwu)
    rw [htrim titlePat (by decide)] at h
    exact h

/-- Witness for C2 (amended) at the concrete values a and b. -/
theorem parse_duplicate_first_wins_witness :
    cleanWord (String.toList "a") ∧ cleanWord (String.toList "b") ∧
    (parseSearchQuery (datePat ++ (String.toList "a" ++ (' ' :: (datePat ++ String.toList "b")))) =
      { query := datePat ++ String.toList "b", date := some (String.toList "a"),
        time := none, title := none, url := none } ∧
    parseSearchQuery (titlePat ++ (String.toList "a" ++ (' ' :: (titlePat ++ String.toList "b")))) =
      { query := titlePat ++ String.toList "b", date := none, time := none,
        title := some (String.toList "a"), url := none }) :=
  ⟨by decide, by decide, parse_duplicate_first_wins _ _ (by decide) (by decide)⟩

/-- C8 counterexample: a malformed date value containing a quote
character does not pass through unchanged — the parser deletes every
quote character from date/time values. -/
theorem parse_date_value_quote_stripped :
    (parseSearchQuery (datePat ++ ('a' :: dq :: ['b']))).date = some (String.toList "ab") ∧
    (parseSearchQuery (datePat ++ ('a' :: dq :: ['b']))).date ≠ some ('a' :: dq :: ['b']) := by
  decide

/-- C8 (amended): parseSearchQuery is a total function (it is a plain
Lean def, defined on every input string), and a malformed filter value —
any nonempty word free of whitespace, quotes and colons, whether or not
it denotes a valid date or time — passes through unchanged as an opaque
string for each of the four prefixes. -/
theorem parse_total_opaque_values (v : List Char) (hv : cleanWord v) :
    parseSearchQuery (datePat ++ v) =
      { query := [], date := some v, time := none, title := none, url := none } ∧
    parseSearchQuery (timePat ++ v) =
      { query := [], date := none, time := some v, title := none, url := none } ∧
    parseSearchQuery (titlePat ++ v) =
      { query := [], date := none, time := none, title := some v, url := none } ∧
    parseSearchQuery (urlPat ++ v) =
      { query := [], date := none, time := none, title := none, url := some v } := by
  refine ⟨?_, ?_, ?_, ?_⟩
  · have h := parse_date_tok (R := ([] : List Char)) hv trivial (by decide) (by decide)
      (by decide)
    rw [List.append_nil] at h
    exact h
  · have h := parse_time_tok (R := ([] : List Char)) hv trivial (by decide) (by decide)
      (by decide)
    rw [List.append_nil] at h
    exact h
  · have h := parse_title_tok (R := ([] : List Char)) hv trivial (by decide) (by decide)
      (by decide)
    rw [List.append_nil] at h
    exact h
  · have h := parse_url_tok (R := ([] : List Char)) hv trivial (by decide) (by decide)
      (by decide)
    rw [List.append_nil] at h
    exact h

/-- Witness for C8 (amended) at a nonsense value. -/
theorem parse_total_opaque_values_witness :
    cleanWord (String.toList "!!nonsense@@") ∧
    parseSearchQuery (datePat ++ String.toList "!!nonsense@@") =
      { query := [], date := some (String.toList "!!nonsense@@"), time := none,
        title := none, url := none } :=
  ⟨by decide, (parse_total_opaque_values _ (by decide)).1⟩

theorem stripSurround_wrap {qc : Char} (hq : isQuoteChar qc = true) {v : List Char}
    (hv : ∀ c ∈ v, jsSpace c = false) :
    stripSurround (qc :: (v ++ [qc])) = v := by
  have h1 : decide (2 ≤ (qc :: (v ++ [qc])).length) = true := by
    rw [decide_eq_true_eq]
    simp
  have h2 : isQuoteChar ((qc :: (v ++ [qc])).headD ' ') = true := hq
  have h3 : isQuoteChar ((qc :: (v ++ [qc])).getLastD ' ') = true := by
    rw [show qc :: (v ++ [qc]) = (qc :: v) ++ [qc] from rfl, List.getLastD_concat]
    exact hq
  have h4 : ((qc :: (v ++ [qc])).drop 1).dropLast.all dotChar = true := by
    show ((v ++ [qc]).dropLast).all dotChar = true
    rw [List.dropLast_concat, List.all_eq_true]
    intro c hc
    have hcs := hv c hc
    simp only [dotChar, Bool.and_eq_true, decide_eq_true_eq]
    constructor
    · rintro rfl
      exact absurd hcs (by decide)
    · rintro rfl
      exact absurd hcs (by decide)
  unfold stripSurround
  split
  · show (v ++ [qc]).dropLast = v
    exact List.dropLast_concat
  · next hcond =>
    exfalso
    apply hcond
    rw [h2, h3, h4, h1]
    rfl

theorem stripQuotesAll_wrap {qc : Char} (hq : isQuoteChar qc = true) {v : List Char}
    (hv : ∀ c ∈ v, c ≠ dq ∧ c ≠ sq) :
    stripQuotesAll (qc :: (v ++ [qc])) = v := by
  unfold stripQuotesAll
  rw [List.filter_cons_of_neg (by simp [hq]), List.filter_append,
    List.filter_eq_self.mpr (fun c hc => by simp [isQuoteChar, (hv c hc).1, (hv c hc).2]),
    List.filter_cons_of_neg (by simp [hq])]
  simp

theorem quoteWrap_word {b : Char} (hqs : jsSpace b = false) (hqc : b ≠ ':')
    {v : List Char} (hv : cleanWord v) :
    (b :: (v ++ [b]) ≠ []) ∧ (∀ c ∈ b :: (v ++ [b]), jsSpace c = false) ∧
      (∀ c ∈ b :: (v ++ [b]), c ≠ ':') := by
  refine ⟨List.cons_ne_nil _ _, ?_, ?_⟩
  · intro c hc
    rcases List.mem_cons.mp hc with rfl | hc
    · exact hqs
    · rcases List.mem_append.mp hc with hc | hc
      · exact (hv.2 c hc).1
      · rcases List.mem_singleton.mp hc with rfl
        exact hqs
  · intro c hc
    rcases List.mem_cons.mp hc with rfl | hc
    · exact hqc
    · rcases List.mem_append.mp hc with hc | hc
      · exact (hv.2 c hc).2.2.2
      · rcases List.mem_singleton.mp hc with rfl
        exact hqc

/-- C6 counterexample: a title value quoted with double quotes and
containing a space is not captured to the closing quote — the bare-token
alternative fires first, the captured value keeps its opening quote, and
the remainder of the quoted text falls into the free-text query. -/
theorem parse_quoted_space_not_spanned :
    (parseSearchQuery (titlePat ++ (dq :: (String.toList "hello world" ++ [dq])))).title =
      some (dq :: String.toList "hello") ∧
    (parseSearchQuery (titlePat ++ (dq :: (String.toList "hello world" ++ [dq])))).title ≠
      some (String.toList "hello world") ∧
    (parseSearchQuery (titlePat ++ (dq :: (String.toList "hello world" ++ [dq])))).query =
      String.toList "world" ++ [dq] := by decide

/-- C6 (amended): a quoted value never spans whitespace (the capture
stops at the first whitespace character because the bare-token regex
alternative is tried first).  For a whitespace-free token: title/url
values wrapped in double or single quotes have the surrounding quote
pair stripped, while date/time values have every quote character
removed — with the same net result on a quote-wrapped clean word. -/
theorem parse_quoted_single_token (v : List Char) (hv : cleanWord v) :
    parseSearchQuery (titlePat ++ (dq :: (v ++ [dq]))) =
      { query := [], date := none, time := none, title := some v, url := none } ∧
    parseSearchQuery (urlPat ++ (sq :: (v ++ [sq]))) =
      { query := [], date := none, time := none, title := none, url := some v } ∧
    parseSearchQuery (datePat ++ (dq :: (v ++ [dq]))) =
      { query := [], date := some v, time := none, title := none, url := none } := by
  obtain ⟨hd1, hd2, hd3⟩ := quoteWrap_word (b := dq) (by decide) (by decide) hv
  obtain ⟨hs1, hs2, hs3⟩ := quoteWrap_word (b := sq) (by decide) (by decide) hv
  refine ⟨?_, ?_, ?_⟩
  · have hn1 : NoCIStart datePat (titlePat ++ (dq :: (v ++ [dq]))) [] :=
      noCIStart_of_alien (by decide) (by decide) (by decide)
        (containsCI_false_of_no_colon (by decide) hd3) trivial
    have hn2 : NoCIStart timePat (titlePat ++ (dq :: (v ++ [dq]))) [] :=
      noCIStart_of_alien (by decide) (by decide) (by decide)
        (containsCI_false_of_no_colon (by decide) hd3) trivial
    have e1 := extractSimple_nomatch (P := datePat) (by decide) hn1
    have e2 := extractSimple_nomatch (P := timePat) (by decide) hn2
    have e3 := extractQuoted_hit (P := titlePat) (A := ([] : List Char))
      (Y := ([] : List Char)) (by decide) (noCIStart_nil titlePat _) hd1 hd2 trivial
    simp only [List.nil_append, List.append_nil] at e3
    have e4 := extractQuoted_nomatch (P := urlPat) (by decide) (noCIStart_nil urlPat [])
    simp only [parseSearchQuery]
    rw [e1]
    dsimp only
    rw [e2]
    dsimp only
    rw [e3]
    dsimp only
    rw [e4]
    rw [stripSurround_wrap (by decide) fun c hc => (hv.2 c hc).1]
    rfl
  · have hn1 : NoCIStart datePat (urlPat ++ (sq :: (v ++ [sq]))) [] :=
      noCIStart_of_alien (by decide) (by decide) (by decide)
        (containsCI_false_of_no_colon (by decide) hs3) trivial
    have hn2 : NoCIStart timePat (urlPat ++ (sq :: (v ++ [sq]))) [] :=
      noCIStart_of_alien (by decide) (by decide) (by decide)
        (containsCI_false_of_no_colon (by decide) hs3) trivial
    have hn3 : NoCIStart titlePat (urlPat ++ (sq :: (v ++ [sq]))) [] :=
      noCIStart_of_alien (by decide) (by decide) (by decide)
        (containsCI_false_of_no_colon (by decide) hs3) trivial
    have e1 := extractSimple_nomatch (P := datePat) (by decide) hn1
    have e2 := extractSimple_nomatch (P := timePat) (by decide) hn2
    have e3 := extractQuoted_nomatch (P := titlePat) (by decide) hn3
    have e4 := extractQuoted_hit (P := urlPat) (A := ([] : List Char))
      (Y := ([] : List Char)) (by decide) (noCIStart_nil urlPat _) hs1 hs2 trivial
    simp only [List.nil_append, List.append_nil] at e4
    simp only [parseSearchQuery]
    rw [e1]
    dsimp only
    rw [e2]
    dsimp only
    rw [e3]
    dsimp only
    rw [e4]
    rw [stripSurround_wrap (by decide) fun c hc => (hv.2 c hc).1]
    rfl
  · have e1 := extractSimple_hit (P := datePat) (A := ([] : List Char))
      (Y := ([] : List Char)) (by decide) (noCIStart_nil datePat _) hd1 hd2 trivial
    simp only [List.nil_append, List.append_nil] at e1
    have hn2 : NoCIStart timePat ([] : List Char) [] := noCIStart_nil timePat []
    have e2 := extractSimple_nomatch (P := timePat) (by decide) hn2
    have e3 := extractQuoted_nomatch (P := titlePat) (by decide) (noCIStart_nil titlePat [])
    have e4 := extractQuoted_nomatch (P := urlPat) (by decide) (noCIStart_nil urlPat [])
    simp only [parseSearchQuery]
    rw [e1]
    dsimp only
    rw [e2]
    dsimp only
    rw [e3]
    dsimp only
    rw [e4]
    rw [stripQuotesAll_wrap (by decide) fun c hc => ⟨(hv.2 c hc).2.1, (hv.2 c hc).2.2.1⟩]
    rfl

/-- Witness for C6 (amended) at the concrete value hi. -/
theorem parse_quoted_single_token_witness :
    cleanWord (String.toList "hi") ∧
    parseSearchQuery (titlePat ++ (dq :: (String.toList "hi" ++ [dq]))) =
      { query := [], date := none, time := none, title := some (String.toList "hi"),
        url := none } :=
  ⟨by decide, (parse_quoted_single_token _ (by decide)).1⟩

theorem trim_cons_concat {a : Char} {mid : List Char} {b : Char}
    (ha : jsSpace a = false) (hb : jsSpace b = false) :
    trim (a :: (mid ++ [b])) = a :: (mid ++ [b]) := by
  apply trim_eq_self_of_ends
  · exact List.dropWhile_cons_of_neg (by simp [ha])
  · have hrev : (a :: (mid ++ [b])).reverse = b :: (mid.reverse ++ [a]) := by simp
    rw [hrev]
    exact List.dropWhile_cons_of_neg (by simp [hb])

/-- addFilter applied to the empty canonical string produces exactly
`key:value` (when that token needs no edge trimming). -/
theorem addFilter_nil {key v : List Char} (htr : trim (key ++ ':' :: v) = key ++ ':' :: v) :
    addFilter [] key v = key ++ ':' :: v := by
  unfold addFilter removeAllCS
  show trim (trim (removeAllAux (key ++ [':']) 0 []) ++ ' ' :: (key ++ ':' :: v)) = _
  rw [show removeAllAux (key ++ [':']) 0 [] = [] from rfl,
    show trim ([] : List Char) = [] from rfl, List.nil_append, trim_cons_space]
  exact htr

theorem tok_nonspace {key : List Char} (hkey : ∀ c ∈ key ++ [':'], jsSpace c = false)
    {v : List Char} (hv : ∀ c ∈ v, jsSpace c = false) :
    ∀ c ∈ key ++ ':' :: v, jsSpace c = false := by
  intro c hc
  rcases List.mem_append.mp hc with hc | hc
  · exact hkey c (List.mem_append.mpr (Or.inl hc))
  · rcases List.mem_cons.mp hc with rfl | hc
    · exact hkey ':' (by simp)
    · exact hv c hc

theorem contains_space_word {P u : List Char} (hP1 : P ≠ [])
    (hP2 : ∀ c ∈ P, jsSpace c = false) (hu : containsCI P u = false) :
    containsCI P (' ' :: u) = false :=
  containsCI_false_of_noCIStart
    (noCIStart_cons_space hP1 hP2 (noCIStart_of_contains hP1 hP2 hu trivial)) hP1

/-- C10 counterexample: addFilter appends its value unquoted, but a
value containing a quote character does not re-parse to itself — the
parser strips quote characters from date values. -/
theorem addFilter_value_quote_not_roundtrip :
    (parseSearchQuery (addFilter [] (String.toList "date") ('a' :: dq :: ['b']))).date ≠
      some ('a' :: dq :: ['b']) ∧
    (parseSearchQuery (addFilter [] (String.toList "date") ('a' :: dq :: ['b']))).date =
      some (String.toList "ab") := by decide

/-- C10 (amended): addFilter appends its value unquoted as key:value.
For every nonempty value free of whitespace, quotes and colons, parsing
the canonical string produced by addFilter on the empty string yields
exactly that value for that key; and for a value of the form
word-space-word (both words clean), only the first word re-parses as
the key's value while the second word falls into the free-text
query. -/
theorem addFilter_reparse (v w u : List Char) (hv : cleanWord v) (hw : cleanWord w)
    (hu : cleanWord u) :
    (parseSearchQuery (addFilter [] (String.toList "date") v) =
      { query := [], date := some v, time := none, title := none, url := none } ∧
     parseSearchQuery (addFilter [] (String.toList "time") v) =
      { query := [], date := none, time := some v, title := none, url := none } ∧
     parseSearchQuery (addFilter [] (String.toList "title") v) =
      { query := [], date := none, time := none, title := some v, url := none } ∧
     parseSearchQuery (addFilter [] (String.toList "url") v) =
      { query := [], date := none, time := none, title := none, url := some v }) ∧
    (parseSearchQuery (addFilter [] (String.toList "date") (w ++ ' ' :: u)) =
      { query := u, date := some w, time := none, title := none, url := none } ∧
     parseSearchQuery (addFilter [] (String.toList "time") (w ++ ' ' :: u)) =
      { query := u, date := none, time := some w, title := none, url := none } ∧
     parseSearchQuery (addFilter [] (String.toList "title") (w ++ ' ' :: u)) =
      { query := u, date := none, time := none, title := some w, url := none } ∧
     parseSearchQuery (addFilter [] (String.toList "url") (w ++ ' ' :: u)) =
      { query := u, date := none, time := none, title := none, url := some w }) := by
  obtain ⟨_, _, hud, hut, huti, huu⟩ := cleanWord_parts hu
  have hvns : ∀ c ∈ v, jsSpace c = false := fun c hc => (hv.2 c hc).1
  obtain hnil | ⟨u0, ub, huc⟩ := List.eq_nil_or_concat u
  · exact absurd hnil hu.1
  have hueq : u = u0 ++ [ub] := by rw [huc, List.concat_eq_append]
  subst hueq
  have hub : jsSpace ub = false := (hu.2 ub (by simp)).1
  have hRtrim : trim (' ' :: (u0 ++ [ub])) = u0 ++ [ub] := by
    rw [trim_cons_space]
    exact trim_all_nonspace fun c hc => (hu.2 c hc).1
  have hRsp : SpHead (' ' :: (u0 ++ [ub])) := rfl
  constructor
  · have hA : ∀ key : List Char, (∀ c ∈ key ++ [':'], jsSpace c = false) →
        addFilter [] key v = key ++ ':' :: v :=
      fun key hkey => addFilter_nil (trim_all_nonspace (tok_nonspace hkey hvns))
    refine ⟨?_, ?_, ?_, ?_⟩
    · rw [hA (String.toList "date") (by decide),
        show (String.toList "date") ++ ':' :: v = datePat ++ (v ++ []) by simp [datePat]]
      rw [parse_date_tok (R := ([] : List Char)) hv trivial (by decide) (by decide) (by decide)]
      rfl
    · rw [hA (String.toList "time") (by decide),
        show (String.toList "time") ++ ':' :: v = timePat ++ (v ++ []) by simp [timePat]]
      rw [parse_time_tok (R := ([] : List Char)) hv trivial (by decide) (by decide) (by decide)]
      rfl
    · rw [hA (String.toList "title") (by decide),
        show (String.toList "title") ++ ':' :: v = titlePat ++ (v ++ []) by simp [titlePat]]
      rw [parse_title_tok (R := ([] : List Char)) hv trivial (by decide) (by decide) (by decide)]
      rfl
    · rw [hA (String.toList "url") (by decide),
        show (String.toList "url") ++ ':' :: v = urlPat ++ (v ++ []) by simp [urlPat]]
      rw [parse_url_tok (R := ([] : List Char)) hv trivial (by decide) (by decide) (by decide)]
      rfl
  · have hB : ∀ (key tail : List Char),
        key ++ ':' :: (w ++ ' ' :: (u0 ++ [ub])) =
          (key.headD ' ') :: (tail ++ [ub]) →
        jsSpace (key.headD ' ') = false →
        addFilter [] key (w ++ ' ' :: (u0 ++ [ub])) =
          key ++ ':' :: (w ++ ' ' :: (u0 ++ [ub])) := by
      intro key tail hshape hhead
      apply addFilter_nil
      rw [hshape, trim_cons_concat hhead hub, ← hshape]
    refine ⟨?_, ?_, ?_, ?_⟩
    · rw [hB (String.toList "date") (String.toList "ate" ++ ':' :: (w ++ ' ' :: u0))
        (by simp) (by decide),
        show (String.toList "date") ++ ':' :: (w ++ ' ' :: (u0 ++ [ub])) =
          datePat ++ (w ++ (' ' :: (u0 ++ [ub]))) by simp [datePat]]
      rw [parse_date_tok hw hRsp
        (contains_space_word (by decide) (by decide) hut)
        (contains_space_word (by decide) (by decide) huti)
        (contains_space_word (by decide) (by decide) huu), hRtrim]
    · rw [hB (String.toList "time") (String.toList "ime" ++ ':' :: (w ++ ' ' :: u0))
        (by simp) (by decide),
        show (String.toList "time") ++ ':' :: (w ++ ' ' :: (u0 ++ [ub])) =
          timePat ++ (w ++ (' ' :: (u0 ++ [ub]))) by simp [timePat]]
      rw [parse_time_tok hw hRsp
        (contains_space_word (by decide) (by decide) hud)
        (contains_space_word (by decide) (by decide) huti)
        (contains_space_word (by decide) (by decide) huu), hRtrim]
    · rw [hB (String.toList "title") (String.toList "itle" ++ ':' :: (w ++ ' ' :: u0))
        (by simp) (by decide),
        show (String.toList "title") ++ ':' :: (w ++ ' ' :: (u0 ++ [ub])) =
          titlePat ++ (w ++ (' ' :: (u0 ++ [ub]))) by simp [titlePat]]
      rw [parse_title_tok hw hRsp
        (contains_space_word (by decide) (by decide) hud)
        (contains_space_word (by decide) (by decide) hut)
        (contains_space_word (by decide) (by decide) huu), hRtrim]
    · rw [hB (String.toList "url") (String.toList "rl" ++ ':' :: (w ++ ' ' :: u0))
        (by simp) (by decide),
        show (String.toList "url") ++ ':' :: (w ++ ' ' :: (u0 ++ [ub])) =
          urlPat ++ (w ++ (' ' :: (u0 ++ [ub]))) by simp [urlPat]]
      rw [parse_url_tok hw hRsp
        (contains_space_word (by decide) (by decide) hud)
        (contains_space_word (by decide) (by decide) hut)
        (contains_space_word (by decide) (by decide) huti), hRtrim]

/-- Witness for C10 (amended) at concrete values. -/
theorem addFilter_reparse_witness :
    cleanWord (String.toList "github") ∧
    parseSearchQuery (addFilter [] (String.toList "url") (String.toList "github")) =
      { query := [], date := none, time := none, title := none,
        url := some (String.toList "github") } ∧
    parseSearchQuery (addFilter [] (String.toList "title")
        (String.toList "big" ++ ' ' :: String.toList "report")) =
      { query := String.toList "report", date := none, time := none,
        title := some (String.toList "big"), url := none } :=
  ⟨by decide,
    (addFilter_reparse (String.toList "github") (String.toList "big") (String.toList "report")
      (by decide) (by decide) (by decide)).1.2.2.2,
    (addFilter_reparse (String.toList "github") (String.toList "big") (String.toList "report")
      (by decide) (by decide) (by decide)).2.2.2.1⟩

/-! ## Ordering and pagination lemmas for the retrieval planner -/

theorem length_sortDescByTimestamp (l : List DbRow) :
    (sortDescByTimestamp l).length = l.length := by
  simp [sortDescByTimestamp]

theorem pairwise_sortDescByTimestamp (l : List DbRow) :
    (sortDescByTimestamp l).Pairwise tsGe :=
  List.sorted_insertionSort tsGe l

theorem pairwise_slice_sortDesc (rows : List DbRow) (a b : Nat) :
    (((sortDescByTimestamp rows).drop a).take b).Pairwise tsGe :=
  List.Pairwise.sublist ((List.take_sublist _ _).trans (List.drop_sublist _ _))
    (pairwise_sortDescByTimestamp rows)

theorem pairwise_map_toClient {l : List DbRow} (h : l.Pairwise tsGe) :
    (l.map toClientEntry).Pairwise fun a b => b.timestamp ≤ a.timestamp := by
  rw [List.pairwise_map]
  exact h

/-- C1: for a dataset with N matching records, page k ≥ 1 and limit
L ≥ 1, searchEntries fetches min(L+1, max(0, N-(k-1)·L)) rows at offset
(k-1)·L (i.e. requests L+1), returns exactly min(L, max(0, N-(k-1)·L))
records, and sets hasMore exactly when N > k·L. -/
theorem searchEntries_pagination (today : List Char) (store : List DbRow) (f : ServerFilters)
    (hk : 1 ≤ f.page) (hL : 1 ≤ f.limit) :
    ((fetchedRows store f).length : Int) =
      min (f.limit + 1) (max 0 (((matchingRows store f).length : Int) - (f.page - 1) * f.limit)) ∧
    ((searchEntries today store f).entries.length : Int) =
      min f.limit (max 0 (((matchingRows store f).length : Int) - (f.page - 1) * f.limit)) ∧
    ((searchEntries today store f).hasMore = true ↔
      f.page * f.limit < ((matchingRows store f).length : Int)) := by
  have hoff : ((((f.page - 1) * f.limit).toNat : Nat) : Int) = (f.page - 1) * f.limit :=
    Int.toNat_of_nonneg (mul_nonneg (by omega) (by omega))
  have hmul : f.page * f.limit = (f.page - 1) * f.limit + f.limit := by ring
  have htk : (((f.limit + 1).toNat : Nat) : Int) = f.limit + 1 :=
    Int.toNat_of_nonneg (by omega)
  have hlk : ((f.limit.toNat : Nat) : Int) = f.limit :=
    Int.toNat_of_nonneg (by omega)
  have hflen : (fetchedRows store f).length =
      min (f.limit + 1).toNat
        ((matchingRows store f).length - ((f.page - 1) * f.limit).toNat) := by
    simp [fetchedRows, List.length_take, List.length_drop, length_sortDescByTimestamp]
  refine ⟨?_, ?_, ?_⟩
  · omega
  · by_cases hm : f.limit < ((fetchedRows store f).length : Int)
    · have : (searchEntries today store f).entries.length = f.limit.toNat := by
        have hfl : f.limit.toNat ≤ (fetchedRows store f).length := by omega
        simp [searchEntries, hm, List.length_take, Nat.min_eq_left hfl]
      omega
    · have : (searchEntries today store f).entries.length = (fetchedRows store f).length := by
        simp [searchEntries, hm]
      omega
  · have : (searchEntries today store f).hasMore = true ↔
        f.limit < ((fetchedRows store f).length : Int) := by
      simp [searchEntries]
    rw [this]
    omega

/-- Witness for C1 at a concrete store: three rows all matching, page 1,
limit 2 — two records returned and hasMore set. -/
theorem searchEntries_pagination_witness :
    (1 : Int) ≤ 1 ∧ (1 : Int) ≤ 2 ∧
    (((searchEntries [] [⟨1, 30, none, none, none, none, none, []⟩,
        ⟨2, 10, none, none, none, none, none, []⟩,
        ⟨3, 20, none, none, none, none, none, []⟩]
        ⟨none, none, none, none, none, 1, 2⟩).entries.length : Int) =
      min 2 (max 0 (((matchingRows [⟨1, 30, none, none, none, none, none, []⟩,
        ⟨2, 10, none, none, none, none, none, []⟩,
        ⟨3, 20, none, none, none, none, none, []⟩]
        ⟨none, none, none, none, none, 1, 2⟩).length : Int) - (1 - 1) * 2)) ∧
      ((searchEntries [] [⟨1, 30, none, none, none, none, none, []⟩,
        ⟨2, 10, none, none, none, none, none, []⟩,
        ⟨3, 20, none, none, none, none, none, []⟩]
        ⟨none, none, none, none, none, 1, 2⟩).hasMore = true ↔
        (1 : Int) * 2 < ((matchingRows [⟨1, 30, none, none, none, none, none, []⟩,
        ⟨2, 10, none, none, none, none, none, []⟩,
        ⟨3, 20, none, none, none, none, none, []⟩]
        ⟨none, none, none, none, none, 1, 2⟩).length : Int))) :=
  ⟨by decide, by decide,
    ((searchEntries_pagination [] _ _ (by decide) (by decide)).2.1),
    ((searchEntries_pagination [] _ _ (by decide) (by decide)).2.2)⟩

/-- C5: every result page of both retrieval paths is ordered by
timestamp descending (consecutive timestamps non-increasing), for every
combination of filters. -/
theorem results_ordered (today : List Char) (store : List DbRow) (f : ServerFilters)
    (date : Option (List Char)) (page limit : Int) :
    ((searchEntries today store f).entries.Pairwise fun a b => b.timestamp ≤ a.timestamp) ∧
    ((getTimelineEntries today store date page limit).entries.Pairwise
      fun a b => b.timestamp ≤ a.timestamp) := by
  constructor
  · apply pairwise_map_toClient
    have hbase := pairwise_slice_sortDesc (matchingRows store f)
      ((f.page - 1) * f.limit).toNat (f.limit + 1).toNat
    show ((if _ then _ else _ : List DbRow)).Pairwise tsGe
    split
    · exact List.Pairwise.sublist (List.take_sublist _ _) hbase
    · exact hbase
  · apply pairwise_map_toClient
    have hbase := pairwise_slice_sortDesc
      (store.filter fun r =>
        match parseDateYMD (match date with
          | some d => if d.isEmpty then today else d
          | none => today) with
        | some day => decide (dayIndex r.timestamp = day)
        | none => false)
      ((page - 1) * limit).toNat (limit + 1).toNat
    show ((if _ then _ else _ : List DbRow)).Pairwise tsGe
    split
    · exact List.Pairwise.sublist (List.take_sublist _ _) hbase
    · exact hbase

/-- C9: the capture flag starts true; getCaptureStatus reports the flag
without changing it; toggleCaptureStatus flips it and reports the new
value, so two toggles from the initial state return false then true and
leave the flag true. -/
theorem capture_flag_spec :
    initialCaptureActive = true ∧
    (∀ s : Bool, getCaptureStatus s = ({ active := s }, s)) ∧
    (toggleCaptureStatus initialCaptureActive).1.active = false ∧
    (toggleCaptureStatus (toggleCaptureStatus initialCaptureActive).2).1.active = true ∧
    (toggleCaptureStatus (toggleCaptureStatus initialCaptureActive).2).2 = true :=
  ⟨rfl, fun _ => rfl, rfl, rfl, rfl⟩

/-- C7 counterexample: an empty page parameter is non-numeric for
parseInt (it yields NaN), yet the route does not reject the request —
the JS truthiness test `req.query.page ? … : undefined` drops the empty
string, the schema defaults page to 1, and the search runs with a 200
response. -/
theorem search_route_empty_page_not_rejected :
    parseIntJS [] = none ∧
    (searchRoute [] [] (RawSearchQuery.mk none none none none none
      (some []) none)).status = 200 ∧
    (searchRoute [] [] (RawSearchQuery.mk none none none none none
      (some []) none)).searchAttempted = true := by decide

/-- C7 (amended): a /api/search request carrying a nonempty page or
limit parameter that is non-numeric (parseInt yields NaN) is answered
with the 400 validation response, not the 500 fault response, and the
storage search is not attempted; an empty (falsy) parameter is instead
treated as absent and defaulted. -/
theorem search_route_rejects_bad_numbers (today : List Char) (store : List DbRow)
    (raw : RawSearchQuery)
    (h : (∃ p, raw.page = some p ∧ p ≠ [] ∧ parseIntJS p = none) ∨
         (∃ l, raw.limit = some l ∧ l ≠ [] ∧ parseIntJS l = none)) :
    (searchRoute today store raw).status = 400 ∧
    (searchRoute today store raw).searchAttempted = false ∧
    (searchRoute today store raw).status ≠ 500 := by
  have he : validateSearch raw = .error (String.toList "Expected number, received nan") := by
    rcases h with ⟨p, hp, hpne, hn⟩ | ⟨l, hl, hlne, hn⟩
    · simp [validateSearch, hp, isEmpty_false_of_ne hpne, hn]
    · unfold validateSearch
      rcases hq : raw.page with _ | s
      · simp [hq, hl, isEmpty_false_of_ne hlne, hn]
      · rcases hse : s.isEmpty with _ | _
        · rcases hs : parseIntJS s with _ | n
          · simp [hq, hse, hs]
          · simp [hq, hse, hs, hl, isEmpty_false_of_ne hlne, hn]
        · simp [hq, hse, hl, isEmpty_false_of_ne hlne, hn]
  refine ⟨?_, ?_, ?_⟩ <;> simp [searchRoute, he]

/-- Witness for C7 (amended): page set to the nonempty non-numeric
string "abc". -/
theorem search_route_rejects_bad_numbers_witness :
    ((∃ p, (RawSearchQuery.mk none none none none none (some (String.toList "abc")) none).page
        = some p ∧ p ≠ [] ∧ parseIntJS p = none) ∨
      (∃ l, (RawSearchQuery.mk none none none none none (some (String.toList "abc")) none).limit
        = some l ∧ l ≠ [] ∧ parseIntJS l = none)) ∧
    (searchRoute [] [] (RawSearchQuery.mk none none none none none
      (some (String.toList "abc")) none)).status = 400 ∧
    (searchRoute [] [] (RawSearchQuery.mk none none none none none
      (some (String.toList "abc")) none)).searchAttempted = false ∧
    (searchRoute [] [] (RawSearchQuery.mk none none none none none
      (some (String.toList "abc")) none)).status ≠ 500 :=
  ⟨Or.inl ⟨String.toList "abc", rfl, by decide, by decide⟩,
    search_route_rejects_bad_numbers [] [] _
      (Or.inl ⟨String.toList "abc", rfl, by decide, by decide⟩)⟩

/-! ## Global removal: invariants of removeAllCS, for addFilter idempotence -/

theorem removeAllAux_succ (pat : List Char) (k : Nat) (c : Char) (t : List Char) :
    removeAllAux pat (k + 1) (c :: t) = removeAllAux pat k t := rfl

theorem removeAllAux_skip (pat : List Char) :
    ∀ (l rest : List Char), removeAllAux pat l.length (l ++ rest) = removeAllAux pat 0 rest
  | [], rest => rfl
  | c :: t, rest => by
    rw [List.cons_append, List.length_cons, removeAllAux_succ]
    exact removeAllAux_skip pat t rest

theorem removeAll_cons (pat : List Char) (c : Char) (t : List Char) :
    removeAllCS pat (c :: t) =
      match tryMatchCS pat (c :: t) with
      | some (m, _) => removeAllAux pat (m.length - 1) t
      | none => c :: removeAllCS pat t := rfl

theorem removeAll_cons_keep {pat : List Char} {c : Char} {t : List Char}
    (h : tryMatchCS pat (c :: t) = none) :
    removeAllCS pat (c :: t) = c :: removeAllCS pat t := by
  rw [removeAll_cons, h]

theorem tryMatchCS_some_parts {pat s m v : List Char}
    (h : tryMatchCS pat s = some (m, v)) :
    startsWithCS pat s = true ∧ v = (s.drop pat.length).takeWhile (fun c => !jsSpace c) ∧
      v ≠ [] ∧ m = pat ++ v := by
  unfold tryMatchCS at h
  rcases hsw : startsWithCS pat s with _ | _
  · rw [hsw] at h; cases h
  · rw [hsw] at h
    simp only [if_true] at h
    split at h
    · cases h
    · next hne =>
      have h' := Option.some.inj h
      have hmm : pat ++ (s.drop pat.length).takeWhile (fun c => !jsSpace c) = m :=
        congrArg Prod.fst h'
      have hvv : (s.drop pat.length).takeWhile (fun c => !jsSpace c) = v :=
        congrArg Prod.snd h'
      refine ⟨rfl, hvv.symm, fun hnil => hne (by rw [hvv, hnil]; rfl), ?_⟩
      rw [← hmm, hvv]

theorem startsWithBy_append_drop {eq : Char → Char → Bool} :
    ∀ {A B s : List Char}, startsWithBy eq (A ++ B) s = true →
      startsWithBy eq B (s.drop A.length) = true
  | [], B, s, h => by simpa using h
  | a :: as, B, [], h => by rw [List.cons_append] at h; cases h
  | a :: as, B, c :: cs, h => by
    rw [List.cons_append, startsWithBy_cons] at h
    obtain ⟨h1, h2⟩ := Bool.and_eq_true_iff.mp h
    rw [List.length_cons, List.drop_succ_cons]
    exact startsWithBy_append_drop h2

theorem startsWithCS_singleton {d : Char} {y : List Char}
    (h : startsWithCS [d] y = true) : ∃ t, y = d :: t := by
  cases y with
  | nil => cases h
  | cons c t =>
    refine ⟨t, ?_⟩
    unfold startsWithCS at h
    rw [startsWithBy_cons] at h
    obtain ⟨h1, -⟩ := Bool.and_eq_true_iff.mp h
    have : d = c := by simpa using h1
    rw [this]

theorem startsWithCS_decompose :
    ∀ {pat s : List Char}, startsWithCS pat s = true → s = pat ++ s.drop pat.length
  | [], s, _ => rfl
  | p :: ps, [], h => by cases h
  | p :: ps, c :: cs, h => by
    unfold startsWithCS at h
    rw [startsWithBy_cons] at h
    obtain ⟨h1, h2⟩ := Bool.and_eq_true_iff.mp h
    have hpc : p = c := by simpa using h1
    subst hpc
    rw [List.length_cons, List.drop_succ_cons, List.cons_append]
    exact congrArg (List.cons p) (startsWithCS_decompose h2)

theorem startsWithCS_of_eq_append {P X s : List Char} (h : s = P ++ X) :
    startsWithCS P s = true := by rw [h]; exact startsWithCS_self P X

theorem tryMatchCS_some_start {pat s m v : List Char}
    (h : tryMatchCS pat s = some (m, v)) :
    ∃ d, jsSpace d = false ∧ startsWithCS (pat ++ [d]) s = true := by
  obtain ⟨hs, hv, hvne, hm⟩ := tryMatchCS_some_parts h
  obtain ⟨d, v', rfl⟩ : ∃ d v', v = d :: v' := by
    cases v with
    | nil => exact absurd rfl hvne
    | cons d v' => exact ⟨d, v', rfl⟩
  have hd : jsSpace d = false := by
    have hmem : d ∈ (s.drop pat.length).takeWhile (fun c => !jsSpace c) := by
      rw [← hv]; exact List.mem_cons_self d v'
    simpa using List.mem_takeWhile_imp hmem
  refine ⟨d, hd, startsWithCS_of_eq_append
    (X := v' ++ (s.drop pat.length).dropWhile (fun c => !jsSpace c)) ?_⟩
  have hsd : s = pat ++ s.drop pat.length := startsWithCS_decompose hs
  have htd : s.drop pat.length =
      (d :: v') ++ (s.drop pat.length).dropWhile (fun c => !jsSpace c) := by
    conv_lhs => rw [← List.takeWhile_append_dropWhile (p := fun c => !jsSpace c)
      (l := s.drop pat.length)]
    rw [← hv]
  conv_lhs => rw [hsd, htd]
  simp [List.append_assoc]

theorem tryMatchCS_of_startsWith {pat s : List Char} {d : Char}
    (hd : jsSpace d = false) (h : startsWithCS (pat ++ [d]) s = true) :
    ∃ r, tryMatchCS pat s = some r := by
  have hs : startsWithCS pat s = true := startsWithBy_pat_append h
  have hdrop : startsWithCS [d] (s.drop pat.length) = true := startsWithBy_append_drop h
  obtain ⟨t, ht⟩ := startsWithCS_singleton hdrop
  refine ⟨(pat ++ (d :: t.takeWhile (fun c => !jsSpace c)),
    d :: t.takeWhile (fun c => !jsSpace c)), ?_⟩
  unfold tryMatchCS
  rw [hs]
  simp only [if_true]
  rw [ht, List.takeWhile_cons_of_pos (by simp [hd])]
  rfl

theorem startsWithCS_nil_right {q : List Char} (hq : q ≠ []) :
    startsWithCS q [] = false := startsWithBy_nil_right _ hq

theorem dropWhile_head_false {p : Char → Bool} :
    ∀ {l : List Char} {c : Char} {t : List Char}, l.dropWhile p = c :: t → p c = false
  | [], c, t, h => by cases h
  | a :: l, c, t, h => by
    rcases ha : p a with _ | _
    · rw [List.dropWhile_cons_of_neg (by simp [ha])] at h
      cases h
      exact ha
    · rw [List.dropWhile_cons_of_pos ha] at h
      exact dropWhile_head_false h

theorem startsWithBy_extend {eq : Char → Char → Bool} {P x : List Char} (z : List Char)
    (h : startsWithBy eq P x = true) : startsWithBy eq P (x ++ z) = true := by
  have hlen : P.length ≤ x.length := by
    by_contra hlt
    rw [startsWithBy_short eq P x (by omega)] at h
    cases h
  rw [startsWithBy_append_left eq P x z hlen]
  exact h

theorem removeAll_chunk {pat s m v : List Char} (hP : pat ≠ [])
    (h : tryMatchCS pat s = some (m, v)) :
    removeAllCS pat s =
      removeAllCS pat ((s.drop pat.length).dropWhile (fun c => !jsSpace c)) := by
  obtain ⟨hs, hv, hvne, hm⟩ := tryMatchCS_some_parts h
  have hsplit : s = pat ++ (v ++ (s.drop pat.length).dropWhile (fun c => !jsSpace c)) := by
    conv_lhs => rw [startsWithCS_decompose hs]
    congr 1
    conv_lhs => rw [← List.takeWhile_append_dropWhile (p := fun c => !jsSpace c)
      (l := s.drop pat.length)]
    rw [← hv]
  obtain ⟨p, pt, rfl⟩ : ∃ p pt, pat = p :: pt := by
    cases pat with
    | nil => exact absurd rfl hP
    | cons p pt => exact ⟨p, pt, rfl⟩
  have hs2 : s = p :: ((pt ++ v) ++
      (s.drop (p :: pt).length).dropWhile (fun c => !jsSpace c)) := by
    conv_lhs => rw [hsplit]
    simp [List.append_assoc]
  conv_lhs => rw [hs2]
  rw [removeAll_cons, ← hs2, h]
  show removeAllAux (p :: pt) (m.length - 1)
      ((pt ++ v) ++ (s.drop (p :: pt).length).dropWhile (fun c => !jsSpace c)) =
    removeAllCS (p :: pt) ((s.drop (p :: pt).length).dropWhile (fun c => !jsSpace c))
  have hlen : m.length - 1 = (pt ++ v).length := by
    rw [hm]
    simp only [List.length_append, List.length_cons]
    omega
  rw [hlen, removeAllAux_skip]
  rfl

theorem removeAll_transfer {pat : List Char} (hP : pat ≠ []) :
    ∀ n : Nat, ∀ s : List Char, s.length ≤ n → ∀ q : List Char, q ≠ [] →
      (∀ c ∈ q, jsSpace c = false) →
      startsWithCS q (removeAllCS pat s) = true → startsWithCS q s = true := by
  intro n
  induction n with
  | zero =>
    intro s hs q hq hqs h
    cases s with
    | nil =>
      rw [show removeAllCS pat [] = [] from rfl, startsWithCS_nil_right hq] at h
      cases h
    | cons c t => simp at hs
  | succ n ih =>
    intro s hs q hq hqs h
    cases s with
    | nil =>
      rw [show removeAllCS pat [] = [] from rfl, startsWithCS_nil_right hq] at h
      cases h
    | cons c t =>
      have ht : t.length ≤ n := by
        have h5 := hs
        simp only [List.length_cons] at h5
        omega
      rcases htm : tryMatchCS pat (c :: t) with _ | r
      · rw [removeAll_cons_keep htm] at h
        cases q with
        | nil => exact absurd rfl hq
        | cons q0 q' =>
          unfold startsWithCS at h ⊢
          rw [startsWithBy_cons] at h ⊢
          obtain ⟨h1, h2⟩ := Bool.and_eq_true_iff.mp h
          rw [h1, Bool.true_and]
          cases q' with
          | nil => rw [startsWithBy_nil]
          | cons e q'' =>
            exact ih t ht (e :: q'') (List.cons_ne_nil _ _)
              (fun x hx => hqs x (List.mem_cons_of_mem q0 hx)) h2
      · obtain ⟨m2, v2⟩ := r
        rw [removeAll_chunk hP htm] at h
        have hZlen : (((c :: t).drop pat.length).dropWhile (fun x => !jsSpace x)).length
            ≤ n := by
          have h1 : (((c :: t).drop pat.length).dropWhile (fun x => !jsSpace x)).length ≤
              ((c :: t).drop pat.length).length :=
            (List.dropWhile_suffix (fun x => !jsSpace x)).length_le
          have h2 : ((c :: t).drop pat.length).length = (c :: t).length - pat.length := by
            simp
          have h3 : 1 ≤ pat.length := by
            cases pat with
            | nil => exact absurd rfl hP
            | cons x y => simp
          simp only [List.length_cons] at h2
          omega
        have hq2 := ih _ hZlen q hq hqs h
        exfalso
        rcases hZe : ((c :: t).drop pat.length).dropWhile (fun x => !jsSpace x)
          with _ | ⟨zc, zt⟩
        · rw [hZe, startsWithCS_nil_right hq] at hq2
          cases hq2
        · have hzc : jsSpace zc = true := by
            have h6 := dropWhile_head_false hZe
            simpa using h6
          rw [hZe] at hq2
          cases q with
          | nil => exact hq rfl
          | cons q0 q' =>
            unfold startsWithCS at hq2
            rw [startsWithBy_cons] at hq2
            obtain ⟨h1, -⟩ := Bool.and_eq_true_iff.mp hq2
            have h7 : q0 = zc := by simpa using h1
            rw [← h7] at hzc
            rw [hqs q0 (List.mem_cons_self _ _)] at hzc
            cases hzc

theorem removeAll_no_match {pat : List Char} (hP : pat ≠ [])
    (hPs : ∀ c ∈ pat, jsSpace c = false) :
    ∀ n : Nat, ∀ s : List Char, s.length ≤ n → ∀ i : Nat,
      tryMatchCS pat ((removeAllCS pat s).drop i) = none := by
  intro n
  induction n with
  | zero =>
    intro s hs i
    cases s with
    | nil =>
      rw [show removeAllCS pat [] = [] from rfl, List.drop_nil]
      exact tryMatchCS_none (startsWithBy_nil_right lowEq hP)
    | cons c t => simp at hs
  | succ n ih =>
    intro s hs i
    cases s with
    | nil =>
      rw [show removeAllCS pat [] = [] from rfl, List.drop_nil]
      exact tryMatchCS_none (startsWithBy_nil_right lowEq hP)
    | cons c t =>
      have ht : t.length ≤ n := by
        have h5 := hs
        simp only [List.length_cons] at h5
        omega
      rcases htm : tryMatchCS pat (c :: t) with _ | r
      · rw [removeAll_cons_keep htm]
        cases i with
        | zero =>
          rw [List.drop_zero]
          rcases htm2 : tryMatchCS pat (c :: removeAllCS pat t) with _ | r2
          · rfl
          · exfalso
            obtain ⟨m2, v2⟩ := r2
            obtain ⟨d, hd, hpre⟩ := tryMatchCS_some_start htm2
            have hpd : ∀ x ∈ pat ++ [d], jsSpace x = false := by
              intro x hx
              rcases List.mem_append.mp hx with hx | hx
              · exact hPs x hx
              · rw [List.mem_singleton.mp hx]
                exact hd
            have htr : startsWithCS (pat ++ [d]) (c :: t) = true := by
              apply removeAll_transfer hP (c :: t).length (c :: t) le_rfl
                (pat ++ [d]) (by simp) hpd
              rw [removeAll_cons_keep htm]
              exact hpre
            obtain ⟨r3, hr3⟩ := tryMatchCS_of_startsWith hd htr
            rw [htm] at hr3
            cases hr3
        | succ i =>
          rw [List.drop_succ_cons]
          exact ih t ht i
      · obtain ⟨m2, v2⟩ := r
        rw [removeAll_chunk hP htm]
        apply ih
        have h1 : (((c :: t).drop pat.length).dropWhile (fun x => !jsSpace x)).length ≤
            ((c :: t).drop pat.length).length :=
          (List.dropWhile_suffix (fun x => !jsSpace x)).length_le
        have h2 : ((c :: t).drop pat.length).length = (c :: t).length - pat.length := by
          simp
        have h3 : 1 ≤ pat.length := by
          cases pat with
          | nil => exact absurd rfl hP
          | cons x y => simp
        simp only [List.length_cons] at h2
        omega

theorem no_match_dropWhile {pat : List Char} {p : Char → Bool} :
    ∀ {s : List Char}, (∀ i, tryMatchCS pat (s.drop i) = none) →
      ∀ i, tryMatchCS pat ((s.dropWhile p).drop i) = none
  | [], h, i => h i
  | c :: t, h, i => by
    rcases hc : p c with _ | _
    · rw [List.dropWhile_cons_of_neg (by simp [hc])]
      exact h i
    · rw [List.dropWhile_cons_of_pos hc]
      exact no_match_dropWhile (fun j => by
        have h2 := h (j + 1)
        rwa [List.drop_succ_cons] at h2) i

theorem no_match_append_left {pat w z : List Char} (hP : pat ≠ [])
    (h : ∀ i, tryMatchCS pat ((w ++ z).drop i) = none) :
    ∀ i, tryMatchCS pat (w.drop i) = none := by
  intro i
  by_cases hi : i ≤ w.length
  · rcases htm : tryMatchCS pat (w.drop i) with _ | r
    · rfl
    · exfalso
      obtain ⟨m, v⟩ := r
      obtain ⟨d, hd, hpre⟩ := tryMatchCS_some_start htm
      have hdr : (w ++ z).drop i = w.drop i ++ z := List.drop_append_of_le_length hi
      have hext : startsWithCS (pat ++ [d]) ((w ++ z).drop i) = true := by
        rw [hdr]
        exact startsWithBy_extend z hpre
      obtain ⟨r2, hr2⟩ := tryMatchCS_of_startsWith hd hext
      rw [h i] at hr2
      cases hr2
  · rw [List.drop_eq_nil_of_le (by omega)]
    exact tryMatchCS_none (startsWithBy_nil_right lowEq hP)

theorem trim_append_eq_dropWhile (s : List Char) :
    trim s ++ ((s.dropWhile jsSpace).reverse.takeWhile jsSpace).reverse
      = s.dropWhile jsSpace := by
  unfold trim
  rw [← List.reverse_append, List.takeWhile_append_dropWhile, List.reverse_reverse]

theorem no_match_trim {pat : List Char} (hP : pat ≠ []) {s : List Char}
    (h : ∀ i, tryMatchCS pat (s.drop i) = none) :
    ∀ i, tryMatchCS pat ((trim s).drop i) = none := by
  have h1 : ∀ i, tryMatchCS pat ((s.dropWhile jsSpace).drop i) = none :=
    no_match_dropWhile h
  exact no_match_append_left
    (z := ((s.dropWhile jsSpace).reverse.takeWhile jsSpace).reverse) hP
    (fun j => by rw [trim_append_eq_dropWhile s]; exact h1 j)

theorem trim_head_nonspace {s : List Char} {c : Char} {t : List Char}
    (h : trim s = c :: t) : jsSpace c = false := by
  have hsplit := trim_append_eq_dropWhile s
  rw [h, List.cons_append] at hsplit
  exact dropWhile_head_false hsplit.symm

theorem trim_reverse_head_nonspace {s : List Char} {c : Char} {t : List Char}
    (h : (trim s).reverse = c :: t) : jsSpace c = false := by
  have h2 : (s.dropWhile jsSpace).reverse.dropWhile jsSpace = c :: t := by
    rw [← h]
    unfold trim
    rw [List.reverse_reverse]
  exact dropWhile_head_false h2

theorem trim_trim (s : List Char) : trim (trim s) = trim s := by
  apply trim_eq_self_of_ends
  · apply dropWhile_eq_self_of_head
    rcases h : trim s with _ | ⟨c, t⟩
    · exact Or.inl rfl
    · exact Or.inr (trim_head_nonspace h)
  · apply dropWhile_eq_self_of_head
    rcases h : (trim s).reverse with _ | ⟨c, t⟩
    · exact Or.inl rfl
    · exact Or.inr (trim_reverse_head_nonspace h)

theorem no_match_space_block {pat : List Char}
    (hPs : ∀ c ∈ pat, jsSpace c = false) {A Y : List Char}
    (hA : ∀ i, tryMatchCS pat (A.drop i) = none) :
    ∀ i, i < A.length → tryMatchCS pat (A.drop i ++ ' ' :: Y) = none := by
  intro i hi
  rcases htm : tryMatchCS pat (A.drop i ++ ' ' :: Y) with _ | r
  · rfl
  · exfalso
    obtain ⟨m, v⟩ := r
    obtain ⟨d, hd, hpre⟩ := tryMatchCS_some_start htm
    have hpd : ∀ x ∈ pat ++ [d], jsSpace x = false := by
      intro x hx
      rcases List.mem_append.mp hx with hx | hx
      · exact hPs x hx
      · rw [List.mem_singleton.mp hx]
        exact hd
    by_cases hlen : (pat ++ [d]).length ≤ (A.drop i).length
    · unfold startsWithCS at hpre
      rw [startsWithBy_append_left _ _ _ _ hlen] at hpre
      obtain ⟨r2, hr2⟩ := tryMatchCS_of_startsWith hd hpre
      rw [hA i] at hr2
      cases hr2
    · push_neg at hlen
      have hci := startsWithCS_imp_CI hpre
      rw [startsWithCI_into_space (pat ++ [d]) (A.drop i) ' ' Y hpd hlen (by decide)]
        at hci
      cases hci

theorem removeAll_keep_append {pat : List Char} :
    ∀ {A : List Char} (R : List Char),
      (∀ i, i < A.length → tryMatchCS pat (A.drop i ++ R) = none) →
      removeAllCS pat (A ++ R) = A ++ removeAllCS pat R
  | [], R, _ => rfl
  | c :: t, R, h => by
    have h0 : tryMatchCS pat (c :: (t ++ R)) = none := h 0 (Nat.succ_pos t.length)
    rw [List.cons_append, removeAll_cons_keep h0,
      removeAll_keep_append R fun i hi => h (i + 1) (Nat.succ_lt_succ hi),
      List.cons_append]

/-- The second application of addFilter with the same key and value is
the identity: the working string is `trim (A ++ " " ++ key:value)` with
`A` trimmed and free of `key:`-matches, the global removal erases
exactly the appended token, and trimming and re-appending restores the
string. -/
theorem second_addFilter_fixed {key value : List Char}
    (hP : key ++ [':'] ≠ []) (hPs : ∀ c ∈ key ++ [':'], jsSpace c = false)
    (hrem : removeAllCS (key ++ [':']) (' ' :: (key ++ ':' :: value)) = [' '])
    (hvne : value ≠ []) (hvs : ∀ c ∈ value, jsSpace c = false)
    {A : List Char}
    (hA : ∀ i, tryMatchCS (key ++ [':']) (A.drop i) = none)
    (hAt : trim A = A) :
    addFilter (trim (A ++ ' ' :: (key ++ ':' :: value))) key value =
      trim (A ++ ' ' :: (key ++ ':' :: value)) := by
  have htokns : ∀ c ∈ key ++ ':' :: value, jsSpace c = false := tok_nonspace hPs hvs
  have htt : trim (key ++ ':' :: value) = key ++ ':' :: value := trim_all_nonspace htokns
  have hsp : tryMatchCS (key ++ [':']) (' ' :: (key ++ ':' :: value)) = none := by
    apply tryMatchCS_none
    exact startsWithCI_space_head _ hP hPs (by decide)
  have hremtok : removeAllCS (key ++ [':']) (key ++ ':' :: value) = [] := by
    have h9 := hrem
    rw [removeAll_cons_keep hsp] at h9
    injection h9 with h1 h2
  cases A with
  | nil =>
    rw [List.nil_append, trim_cons_space, htt]
    show trim (trim (removeAllCS (key ++ [':']) (key ++ ':' :: value)) ++
      ' ' :: (key ++ ':' :: value)) = key ++ ':' :: value
    rw [hremtok, show trim ([] : List Char) = [] from rfl, List.nil_append,
      trim_cons_space, htt]
  | cons a A' =>
    have hans : jsSpace a = false := trim_head_nonspace hAt
    obtain ⟨v0, vl, hveq⟩ : ∃ v0 vl, value = v0 ++ [vl] := by
      obtain hnil | ⟨v0, vl, hvc⟩ := List.eq_nil_or_concat value
      · exact absurd hnil hvne
      · exact ⟨v0, vl, by rw [hvc, List.concat_eq_append]⟩
    have hvl : jsSpace vl = false := hvs vl (by rw [hveq]; simp)
    have hr1 : trim ((a :: A') ++ ' ' :: (key ++ ':' :: value)) =
        (a :: A') ++ ' ' :: (key ++ ':' :: value) := by
      have hshape : (a :: A') ++ ' ' :: (key ++ ':' :: value) =
          a :: ((A' ++ ' ' :: (key ++ ':' :: v0)) ++ [vl]) := by
        rw [hveq]
        simp
      rw [hshape, trim_cons_concat hans hvl, ← hshape]
    rw [hr1]
    show trim (trim (removeAllCS (key ++ [':']) ((a :: A') ++ ' ' :: (key ++ ':' :: value)))
        ++ ' ' :: (key ++ ':' :: value)) = (a :: A') ++ ' ' :: (key ++ ':' :: value)
    have hkeep : removeAllCS (key ++ [':']) ((a :: A') ++ ' ' :: (key ++ ':' :: value)) =
        (a :: A') ++ removeAllCS (key ++ [':']) (' ' :: (key ++ ':' :: value)) :=
      removeAll_keep_append _ (no_match_space_block hPs hA)
    rw [hkeep, hrem,
      trim_append_spaces hAt (fun c hc => by rw [List.mem_singleton.mp hc]; decide), hr1]

/-- C4: addFilter first removes every token for its key and then appends
`key:value`, so a second identical application changes nothing: applying
addFilter("title","report") twice produces the same canonical string —
hence the same parsed SearchFilters — as applying it once, whatever the
starting canonical string; and Scenario D: addFilter("url","github") on
"code url:old.com" yields a string parsing to query "code" and url
"github", the old value fully replaced, not duplicated. -/
theorem addFilter_idempotent :
    (∀ prev : List Char,
      addFilter (addFilter prev (String.toList "title") (String.toList "report"))
        (String.toList "title") (String.toList "report") =
      addFilter prev (String.toList "title") (String.toList "report")) ∧
    (∀ prev : List Char,
      parseSearchQuery
        (addFilter (addFilter prev (String.toList "title") (String.toList "report"))
          (String.toList "title") (String.toList "report")) =
      parseSearchQuery (addFilter prev (String.toList "title") (String.toList "report"))) ∧
    parseSearchQuery (addFilter (String.toList "code url:old.com")
        (String.toList "url") (String.toList "github")) =
      { query := String.toList "code", date := none, time := none, title := none,
        url := some (String.toList "github") } := by
  have hmain : ∀ prev : List Char,
      addFilter (addFilter prev (String.toList "title") (String.toList "report"))
        (String.toList "title") (String.toList "report") =
      addFilter prev (String.toList "title") (String.toList "report") := by
    intro prev
    have hA : ∀ i, tryMatchCS (String.toList "title" ++ [':'])
        ((trim (removeAllCS (String.toList "title" ++ [':']) prev)).drop i) = none :=
      no_match_trim (by decide)
        (removeAll_no_match (by decide) (by decide) prev.length prev le_rfl)
    show addFilter (trim (trim (removeAllCS (String.toList "title" ++ [':']) prev) ++
        ' ' :: (String.toList "title" ++ ':' :: String.toList "report")))
        (String.toList "title") (String.toList "report") = _
    rw [second_addFilter_fixed (by decide) (by decide) (by decide) (by decide) (by decide)
      hA (trim_trim _)]
    rfl
  refine ⟨hmain, fun prev => by rw [hmain prev], by decide⟩

end EidonView
